import Mathlib

/-!
Verification of the cookiedoo-filler annotation alignment engine and
platform client against its specification.

The TypeScript sources are shallowly embedded: JavaScript strings become
`List Char`, the regular expressions of `src/translator.ts` become
hand-compiled deterministic matchers (the patterns involved admit a
deterministic longest-munch reading at every quantifier except the two
optional groups of `TTS_PATTERN` and the unit alternation of the
quantity-stripping pattern, where the JS backtracking order is reproduced
explicitly), and the fallible pieces return `Option`.
-/

set_option maxRecDepth 20000

namespace Cookiedoo

/-- JavaScript strings are modelled as lists of characters. -/
abbrev Str := List Char

/-- The characters matched by the JavaScript regex class `\s`
(whitespace, line terminators, NBSP and the Unicode space separators). -/
def isJsSpace (c : Char) : Bool :=
  c = ' ' ∨ c = '\t' ∨ c = '\n' ∨ c = '\r' ∨ c.val = 0x0b ∨ c.val = 0x0c ∨
  c.val = 0xa0 ∨ c.val = 0x1680 ∨ (0x2000 ≤ c.val ∧ c.val ≤ 0x200a) ∨
  c.val = 0x2028 ∨ c.val = 0x2029 ∨ c.val = 0x202f ∨ c.val = 0x205f ∨
  c.val = 0x3000 ∨ c.val = 0xfeff

/-- The JavaScript regex class `\d`. -/
def isDigit (c : Char) : Bool := '0' ≤ c ∧ c ≤ '9'

/-- Number of consecutive characters satisfying `p` at the head of the list. -/
def countWhile (p : Char → Bool) : Str → Nat
  | [] => 0
  | c :: cs => if p c then countWhile p cs + 1 else 0

/-- Index of the first position of `l` at which `needle` is a prefix. -/
def findPrefixIdx (needle : Str) : Str → Option Nat
  | [] => if needle.isPrefixOf [] then some 0 else none
  | c :: cs =>
    if needle.isPrefixOf (c :: cs) then some 0
    else (findPrefixIdx needle cs).map (· + 1)

/-- Models JavaScript `haystack.indexOf(needle, start)` (result `-1` becomes
`none`; the start position is clamped to the string length, and an empty
needle is found immediately, as in JS). -/
def indexOfFrom (t needle : Str) (start : Nat) : Option Nat :=
  (findPrefixIdx needle (t.drop (min start t.length))).map (· + min start t.length)

/-- JavaScript `haystack.indexOf(needle)`. -/
def indexOf (t needle : Str) : Option Nat := indexOfFrom t needle 0

/-- JavaScript `text.substring(start, start + len)` for in-range arguments. -/
def jsSubstring (t : Str) (start len : Nat) : Str := (t.drop start).take len

/-- JavaScript `haystack.includes(needle)`. -/
def containsSubstr (t needle : Str) : Bool := (indexOf t needle).isSome

/-- JavaScript `toLowerCase` restricted to the ASCII range (the only range
the translator's Dutch ingredient heuristics depend on). -/
def jsToLower (s : Str) : Str := s.map Char.toLower

/-- JavaScript `String.prototype.trim`. -/
def jsTrim (s : Str) : Str :=
  ((s.dropWhile isJsSpace).reverse.dropWhile isJsSpace).reverse

/-- Worker for `jsSplitWs`: the `Bool` records whether we are inside a token
(`true`) or skipping a separator run (`false`); `acc` is the reversed
current token. -/
def splitWsGo : Bool → Str → Str → List Str
  | true, acc, [] => [acc.reverse]
  | false, _, [] => [[]]
  | true, acc, c :: cs =>
    if isJsSpace c then acc.reverse :: splitWsGo false [] cs
    else splitWsGo true (c :: acc) cs
  | false, _, c :: cs =>
    if isJsSpace c then splitWsGo false [] cs
    else splitWsGo true [c] cs

/-- JavaScript `s.split(/\s+/)`: split on maximal whitespace runs, producing
empty fragments at the ends when the string starts or ends with whitespace
(`"".split` gives `[""]`), exactly as in JS. -/
def jsSplitWs (s : Str) : List Str := splitWsGo true [] s

/-- JavaScript `words.join(" ")`. -/
def joinSpace (ws : List Str) : Str := List.intercalate [' '] ws

/-! ### The TTS appliance-notation pattern

`src/translator.ts` lines 77-78:
`TTS_PATTERN = /\d+(?:-\d+)?\s*(?:min|sec)\/(?:\d+°C\/|[Vv]aroma\/)?(?:[↶]\/)?snelheid\s*[\d.]+/g`. -/

/-- Cookidoo's private-use-area reverse blade symbol (`REVERSE_BLADE_CHAR`). -/
def reverseBladeChar : Char := ''

/-- The anticlockwise arrow glyph the translator tends to emit instead. -/
def reverseArrowChar : Char := '↶'

/-- Matcher for the regex fragment `snelheid\s*[\d.]+` at the head of `s`,
returning the number of characters consumed. -/
def matchSpeedTail (s : Str) : Option Nat :=
  if ("snelheid".toList).isPrefixOf s then
    let w := countWhile isJsSpace (s.drop 8)
    let d := countWhile (fun c => isDigit c ∨ c = '.') (s.drop (8 + w))
    if d = 0 then none else some (8 + w + d)
  else none

/-- Matcher for `(?:[↶]\/)?snelheid\s*[\d.]+`: the optional
reverse-marker group is tried first (JS greedy priority), falling back to
the tail alone. -/
def matchRevThenTail (s : Str) : Option Nat :=
  (match s with
    | c :: '/' :: rest =>
      if c = reverseBladeChar ∨ c = reverseArrowChar then
        (matchSpeedTail rest).map (· + 2)
      else none
    | _ => none) <|> matchSpeedTail s

/-- Matcher for the optional group `(?:\d+°C\/|[Vv]aroma\/)` alone (its two
alternatives start with a digit resp. `V`/`v`, so they are mutually
exclusive and need no cross-backtracking). -/
def matchTempGroup (s : Str) : Option Nat :=
  let d := countWhile isDigit s
  if d ≠ 0 ∧ ("°C/".toList).isPrefixOf (s.drop d) then some (d + 3)
  else if (s.headD ' ' = 'V' ∨ s.headD ' ' = 'v') ∧
      ("aroma/".toList).isPrefixOf (s.drop 1) then some 7
  else none

/-- Matcher for `(?:\d+°C\/|[Vv]aroma\/)?(?:[↶]\/)?snelheid\s*[\d.]+`:
taking the temperature group is tried first, falling back to skipping it,
which is exactly the JS backtracking order. -/
def matchAfterSlash (s : Str) : Option Nat :=
  (match matchTempGroup s with
    | some g => (matchRevThenTail (s.drop g)).map (· + g)
    | none => none) <|> matchRevThenTail s

/-- Deterministic matcher for the whole `TTS_PATTERN` at the head of `s`,
returning the length of the (unique, per JS match priority) match.  The
`\d+`, `(?:-\d+)?` and `\s*` quantifiers are maximal-munch: each is
followed by a fragment that can never consume the characters the
quantifier matches, so JS backtracking never shortens them. -/
def matchTTS (s : Str) : Option Nat :=
  let d := countWhile isDigit s
  if d = 0 then none
  else
    let dash :=
      match s.drop d with
      | '-' :: rest =>
        let d2 := countWhile isDigit rest
        if d2 = 0 then 0 else 1 + d2
      | _ => 0
    let w := countWhile isJsSpace (s.drop (d + dash))
    let unitLen : Option Nat :=
      if ("min".toList).isPrefixOf (s.drop (d + dash + w)) then some 3
      else if ("sec".toList).isPrefixOf (s.drop (d + dash + w)) then some 3
      else none
    match unitLen with
    | none => none
    | some u =>
      match s.drop (d + dash + w + u) with
      | '/' :: rest =>
        (matchAfterSlash rest).map (fun t => d + dash + w + u + 1 + t)
      | _ => none

/-- One pass of the `matchAll` scan: at position `p`, either a match starts
(record it and resume after it) or move one character right; JS advances
`lastIndex` by at least one even on an empty match.  The fuel argument only
bounds the recursion; `ttsMatchAll` supplies enough for the whole text. -/
def ttsScanAux (text : Str) : Nat → Nat → List (Nat × Nat)
  | 0, _ => []
  | fuel + 1, p =>
    if p > text.length then []
    else
      match matchTTS (text.drop p) with
      | some len => (p, len) :: ttsScanAux text fuel (max (p + len) (p + 1))
      | none => ttsScanAux text fuel (p + 1)

/-- `[...text.matchAll(TTS_PATTERN)]` as the list of `(index, length)`
pairs, in document order. -/
def ttsMatchAll (text : Str) : List (Nat × Nat) :=
  ttsScanAux text (text.length + 2) 0

/-! ### The translator's draft data model (`AnnotationOutputSchema`,
`TranslatedRecipeSchema` in `src/translator.ts`). -/

/-- The `type` discriminant of `AnnotationOutputSchema`. -/
inductive AnnType where
  | TTS
  | INGREDIENT
deriving DecidableEq, Repr

/-- One tentative annotation as emitted by the translation collaborator
(`AnnotationOutputSchema`): positions are unreliable and get recomputed. -/
structure AnnOut where
  type : AnnType
  speed : Str
  timeSeconds : Int
  temperatureValue : Str
  direction : Str
  ingredientText : Str
  offset : Int
  length : Int
deriving DecidableEq, Repr

/-- One instruction step of the translated draft. -/
structure StepOut where
  text : Str
  annotations : List AnnOut
deriving DecidableEq, Repr

/-- One ingredient line of the translated draft. -/
structure DraftIngredient where
  text : Str
deriving DecidableEq, Repr

/-- `TranslatedRecipeSchema`: the draft recipe the translator proposes. -/
structure TranslatedRecipe where
  name : Str
  ingredients : List DraftIngredient
  instructions : List StepOut
  totalTimeSeconds : Int
  prepTimeSeconds : Int
  servings : Int
deriving DecidableEq, Repr

/-! ### The Position Resolver (`fixAnnotationPositions`) -/

/-- The annotation loop of `fixAnnotationPositions` (`src/translator.ts`
lines 94-117): `ms` is the precomputed `ttsMatches` list, `ti` the running
`ttsIndex` (incremented for every TTS annotation, matched or not), and `m`
the `searchFromByDescription` map (`0` where unset). -/
def fixAnnList (text : Str) (ms : List (Nat × Nat)) :
    List AnnOut → Nat → (Str → Nat) → List AnnOut
  | [], _, _ => []
  | ann :: rest, ti, m =>
    match ann.type with
    | AnnType.TTS =>
      match ms[ti]? with
      | none => fixAnnList text ms rest (ti + 1) m
      | some (idx, len) =>
        { ann with offset := (idx : Int), length := (len : Int) } ::
          fixAnnList text ms rest (ti + 1) m
    | AnnType.INGREDIENT =>
      let desc := ann.ingredientText
      if desc = [] then fixAnnList text ms rest ti m
      else
        match indexOfFrom text desc (m desc) with
        | none => fixAnnList text ms rest ti m
        | some idx =>
          { ann with offset := (idx : Int), length := (desc.length : Int) } ::
            fixAnnList text ms rest ti
              (fun d => if d = desc then idx + desc.length else m d)

/-- `fixAnnotationPositions` restricted to one step: a step without
annotations is returned unchanged, otherwise each annotation's position is
recomputed (TTS annotations from the pattern scan, ingredient annotations
by literal search) and unlocatable annotations are dropped. -/
def fixStep (step : StepOut) : StepOut :=
  if step.annotations = [] then step
  else
    { step with
      annotations :=
        fixAnnList step.text (ttsMatchAll step.text) step.annotations 0 (fun _ => 0) }

/-- `fixAnnotationPositions` (`src/translator.ts` lines 84-121). -/
def fixAnnotationPositions (steps : List StepOut) : List StepOut :=
  steps.map fixStep

/-! ### The Cookidoo patch data model (`src/cookidoo/schemas.ts`) -/

/-- A half-open character range into a step's text (`PositionSchema`). -/
structure Position where
  offset : Int
  length : Int
deriving DecidableEq, Repr

/-- The optional `unit` of `TemperatureSchema` is the literal `"C"`. -/
inductive TempUnit where
  | C
deriving DecidableEq, Repr

/-- `TemperatureSchema`. -/
structure Temperature where
  value : Str
  unit : Option TempUnit
deriving DecidableEq, Repr

/-- The `data` object of `TTSAnnotationSchema`.  The source casts the
translator's non-empty `direction` string with `as "CCW"`, which does not
change the value, so the field is kept as the optional string. -/
structure TTSData where
  speed : Str
  time : Int
  temperature : Option Temperature
  direction : Option Str
deriving DecidableEq, Repr

/-- `AnnotationSchema`: the discriminated union of TTS and ingredient
annotations; an ingredient annotation's `data` is its sole field
`description`. -/
inductive Annot where
  | tts (data : TTSData) (position : Position)
  | ingredient (description : Str) (position : Position)
deriving DecidableEq, Repr

/-- The position of either annotation variant. -/
def Annot.position : Annot → Position
  | .tts _ p => p
  | .ingredient _ p => p

/-- The `data.description` of an ingredient annotation. -/
def Annot.description : Annot → Option Str
  | .tts _ _ => none
  | .ingredient d _ => some d

/-- `InstructionSchema` (`type` is the constant `"STEP"`). -/
structure Instruction where
  text : Str
  annotations : Option (List Annot)
deriving DecidableEq, Repr

/-- `IngredientSchema` (`type` is the constant `"INGREDIENT"`). -/
structure Ingredient where
  text : Str
deriving DecidableEq, Repr

/-- `YieldSchema` (`unitText` is the constant `"portion"`). -/
structure RecipeYield where
  value : Int
deriving DecidableEq, Repr

/-- `PatchRecipeRequestSchema`: the wire payload with partial-update
semantics; absent fields are `none`. -/
structure PatchRecipeRequest where
  name : Option Str := none
  totalTime : Option Int := none
  prepTime : Option Int := none
  yield : Option RecipeYield := none
  ingredients : Option (List Ingredient) := none
  instructions : Option (List Instruction) := none
  image : Option Str := none
  isImageOwnedByUser : Option Bool := none
  hints : Option Str := none
deriving DecidableEq, Repr

/-! ### `matchToIngredient` (`src/translator.ts` lines 213-257)

The word-overlap score accumulates increments of `1` and `0.5`; these
JavaScript floats are exact halves, so the score is embedded as its double
(`2` resp. `1` per word), which preserves every comparison the source
performs (`score > bestScore`, `bestScore >= 1` becoming `≥ 2`). -/

/-- Doubled word-overlap score of one candidate ingredient against the
mention's word list: `2` for a whole-word hit, else `1` when some
ingredient word overlaps the mention word as a substring (the inner loop
breaks after the first such word). -/
def scoreWords (mentionWords : List Str) (ingWords : List Str) : Nat :=
  mentionWords.foldl
    (fun score mw =>
      if ingWords.contains mw then score + 2
      else if ingWords.any (fun iw => containsSubstr iw mw ∨ containsSubstr mw iw) then
        score + 1
      else score)
    0

/-- The best-scoring loop of `matchToIngredient`: first strict improvement
wins, starting from `bestMatch = null`, `bestScore = 0`. -/
def bestScoring (mentionWords : List Str) (ingredients : List Str) :
    Option Str × Nat :=
  ingredients.foldl
    (fun best ing =>
      let s := scoreWords mentionWords (jsSplitWs (jsToLower ing))
      if best.2 < s then (some ing, s) else best)
    (none, 0)

/-- `matchToIngredient`: maps a mention to the best matching full
ingredient text (exact, then ingredient-contains-mention, then
mention-contains-ingredient, then word-overlap scoring with threshold 1,
else the mention itself).  The source's `{text}` records are passed as
their text fields. -/
def matchToIngredient (mention : Str) (ingredients : List Str) : Str :=
  match ingredients.find? (fun i => i = mention) with
  | some i => i
  | none =>
    match ingredients.find? (fun i => containsSubstr i mention) with
    | some i => i
    | none =>
      match ingredients.find? (fun i => containsSubstr mention i) with
      | some i => i
      | none =>
        let mentionWords :=
          (jsSplitWs (jsToLower mention)).filter (fun w => 3 ≤ w.length)
        match bestScoring mentionWords ingredients with
        | (some best, score) => if 2 ≤ score then best else mention
        | (none, _) => mention

/-! ### `findIngredientInText` (`src/translator.ts` lines 262-310) -/

/-- Case-insensitive prefix test (the quantity regex carries the `i` flag;
its literals are ASCII). -/
def ciPref (pat s : Str) : Bool := jsToLower (s.take pat.length) = pat

/-- The unit alternation `(?:g|kg|ml|l|cl|dl|eetlepels?|theelepels?|teentjes?|stuk(?:s|jes?)?)`
flattened into the exact order JS backtracking tries the variants. -/
def qtyUnits : List Str :=
  ["g", "kg", "ml", "l", "cl", "dl", "eetlepels", "eetlepel", "theelepels",
   "theelepel", "teentjes", "teentje", "stuks", "stukjes", "stukje",
   "stuk"].map String.toList

/-- The standalone word alternatives `snufjes?|snufje|handvol|scheutje|druppel|grote?|kleine?`
flattened likewise (the source lists `snufje` twice). -/
def qtyWords : List Str :=
  ["snufjes", "snufje", "snufje", "handvol", "scheutje", "druppel", "grote",
   "grot", "kleine", "klein"].map String.toList

/-- First variant that matches case-insensitively at the head of `s` and is
followed by at least one whitespace character (the pattern's final `\s+`,
maximal); returns the total consumed length. -/
def firstVariantWithWs (s : Str) (variants : List Str) : Option Nat :=
  variants.findSome? (fun v =>
    if ciPref v s then
      let w := countWhile isJsSpace (s.drop v.length)
      if w = 0 then none else some (v.length + w)
    else none)

/-- Length of the match of the anchored quantity/unit-word pattern
`/^(?:\d+(?:[.,]\d+)?\s*UNIT|WORD)\s+/i` at the head of `s`, or `none`.
The numeric quantifiers are maximal-munch (no following fragment can
consume a digit, a decimal mark or the skipped whitespace). -/
def stripQtyLen (s : Str) : Option Nat :=
  let numBranch :=
    let d := countWhile isDigit s
    if d = 0 then none
    else
      let dec :=
        match s.drop d with
        | c :: rest =>
          if c = '.' ∨ c = ',' then
            let d2 := countWhile isDigit rest
            if d2 = 0 then 0 else 1 + d2
          else 0
        | [] => 0
      let w := countWhile isJsSpace (s.drop (d + dec))
      (firstVariantWithWs (s.drop (d + dec + w)) qtyUnits).map (· + (d + dec + w))
  numBranch <|> firstVariantWithWs s qtyWords

/-- `ingredientText.replace(QTY_PATTERN, "")`: the pattern is anchored, so
at most the leading match is removed. -/
def stripQty (s : Str) : Str :=
  match stripQtyLen s with
  | some n => s.drop n
  | none => s

/-- The suffix-word loop: `words.slice(i).join(" ")` for `i = 1, 2, ...`,
skipping suffixes shorter than 4 characters, first `indexOf` hit wins. -/
def suffixSearchAux (stepText : Str) : List Str → Option (Nat × Nat)
  | [] => none
  | w :: rest =>
    (if (joinSpace (w :: rest)).length < 4 then none
     else (indexOf stepText (joinSpace (w :: rest))).map
       (fun i => (i, (joinSpace (w :: rest)).length))) <|>
    suffixSearchAux stepText rest

/-- The character class `[a-zA-ZÀ-ÿ]` of the long-word filter. -/
def isLatinLetter (c : Char) : Bool :=
  ('a' ≤ c ∧ c ≤ 'z') ∨ ('A' ≤ c ∧ c ≤ 'Z') ∨ (0xc0 ≤ c.val ∧ c.val ≤ 0xff)

/-- `w.replace(/[^a-zA-ZÀ-ÿ]/g, "").length`. -/
def alphaCount (w : Str) : Nat := (w.filter isLatinLetter).length

/-- Stable insertion step for the descending-length sort. -/
def insertByLenDesc (w : Str) : List Str → List Str
  | [] => [w]
  | x :: xs =>
    if w.length < x.length then x :: insertByLenDesc w xs
    else w :: x :: xs

/-- `.sort((a, b) => b.length - a.length)`: JS array sort is stable
(ES2019), modelled by a stable insertion sort on descending length. -/
def sortByLenDesc : List Str → List Str
  | [] => []
  | w :: ws => insertByLenDesc w (sortByLenDesc ws)

/-- First long word (in sorted order) found in the step text. -/
def firstWordMatch (stepText : Str) : List Str → Option (Nat × Nat)
  | [] => none
  | w :: rest =>
    (indexOf stepText w).map (fun i => (i, w.length)) <|>
    firstWordMatch stepText rest

/-- Match of the separator regex `\s*[&]\s*|\s+en\s+` at the head of `s`
(first alternative has priority; every quantifier is maximal-munch because
`&` resp. `e` can never be consumed by the adjacent `\s` classes). -/
def sepMatchLen (s : Str) : Option Nat :=
  let alt1 :=
    let w := countWhile isJsSpace s
    match s.drop w with
    | '&' :: rest => some (w + 1 + countWhile isJsSpace rest)
    | _ => none
  let alt2 :=
    let w := countWhile isJsSpace s
    if w = 0 then none
    else if ("en".toList).isPrefixOf (s.drop w) then
      let w2 := countWhile isJsSpace (s.drop (w + 2))
      if w2 = 0 then none else some (w + 2 + w2)
    else none
  alt1 <|> alt2

/-- Worker for `splitParts`; the fuel only bounds the recursion (each step
consumes at least one character). -/
def splitPartsAux : Nat → Str → Str → List Str
  | _, acc, [] => [acc.reverse]
  | 0, acc, rest => [acc.reverse ++ rest]
  | fuel + 1, acc, c :: cs =>
    match sepMatchLen (c :: cs) with
    | some k => acc.reverse :: splitPartsAux fuel [] ((c :: cs).drop k)
    | none => splitPartsAux fuel (c :: acc) cs

/-- `nameToSearch.split(/\s*[&]\s*|\s+en\s+/)`. -/
def splitParts (s : Str) : List Str := splitPartsAux (s.length + 1) [] s

/-- The final loop over `&`/`en` parts: trimmed parts of length at least 4,
first `indexOf` hit wins. -/
def partsSearch (stepText : Str) : List Str → Option (Nat × Nat)
  | [] => none
  | p :: rest =>
    (if 4 ≤ (jsTrim p).length then
      (indexOf stepText (jsTrim p)).map (fun i => (i, (jsTrim p).length))
     else none) <|>
    partsSearch stepText rest

/-- The last three stages of the cascading search (`src/translator.ts`
lines 281-307), operating on the chosen `nameToSearch`: suffix words,
longest single words, `&`/`en` parts. -/
def cascadeFallback (nameToSearch stepText : Str) : Option (Nat × Nat) :=
  let words := jsSplitWs nameToSearch
  let step3 :=
    match words with
    | [] => none
    | _ :: rest => suffixSearchAux stepText rest
  match step3 with
  | some r => some r
  | none =>
    let longWords := sortByLenDesc (words.filter (fun w => 5 ≤ alphaCount w))
    match firstWordMatch stepText longWords with
    | some r => some r
    | none =>
      let parts := splitParts nameToSearch
      if parts.length ≤ 1 then none
      else partsSearch stepText parts

/-- `findIngredientInText`: the cascading search locating an ingredient
mention in a step text — exact text, quantity-stripped text, then the
`cascadeFallback` stages — returning `{offset, length}`. -/
def findIngredientInText (ingredientText stepText : Str) : Option (Nat × Nat) :=
  match indexOf stepText ingredientText with
  | some idx => some (idx, ingredientText.length)
  | none =>
    let withoutQty := jsTrim (stripQty ingredientText)
    let step2 :=
      if withoutQty ≠ ingredientText ∧ 3 ≤ withoutQty.length then
        (indexOf stepText withoutQty).map (fun i => (i, withoutQty.length))
      else none
    match step2 with
    | some r => some r
    | none =>
      let nameToSearch := if withoutQty = [] then ingredientText else withoutQty
      cascadeFallback nameToSearch stepText

/-! ### `toCookidooPatch` (`src/translator.ts` lines 157-206) -/

/-- `step.text.replace(/↶/g, REVERSE_BLADE_CHAR)`: the global
single-character replacement. -/
def replaceReverse (c : Char) : Char :=
  if c = reverseArrowChar then reverseBladeChar else c

/-- One annotation of `toCookidooPatch`'s instruction mapping; empty
`temperatureValue`/`direction` strings are falsy in JS and become absent
fields. -/
def toCookidooAnnot (ingTexts : List Str) (a : AnnOut) : Annot :=
  match a.type with
  | AnnType.TTS =>
    Annot.tts
      { speed := a.speed
        time := a.timeSeconds
        temperature :=
          if a.temperatureValue = [] then none
          else some { value := a.temperatureValue, unit := some TempUnit.C }
        direction := if a.direction = [] then none else some a.direction }
      { offset := a.offset, length := a.length }
  | AnnType.INGREDIENT =>
    Annot.ingredient (matchToIngredient a.ingredientText ingTexts)
      { offset := a.offset, length := a.length }

/-- `toCookidooPatch`: shapes the translated draft into the wire patch,
normalizing the reverse glyph in step texts and resolving each ingredient
mention to a canonical ingredient description. -/
def toCookidooPatch (t : TranslatedRecipe) : PatchRecipeRequest :=
  { name := some t.name
    totalTime := some t.totalTimeSeconds
    prepTime := some t.prepTimeSeconds
    yield := some { value := t.servings }
    ingredients := some (t.ingredients.map (fun i => { text := i.text }))
    instructions :=
      some (t.instructions.map (fun step =>
        { text := step.text.map replaceReverse
          annotations :=
            if step.annotations = [] then none
            else some (step.annotations.map
              (toCookidooAnnot (t.ingredients.map (·.text)))) })) }

/-! ### `addMissingIngredientAnnotations` (`src/translator.ts` lines 316-366) -/

/-- The overlap test of the backfill: `newOffset < existingEnd && newEnd >
existingOffset` against every annotation already in the step. -/
def overlapsExisting (anns : List Annot) (off len : Int) : Bool :=
  anns.any (fun a =>
    off < a.position.offset + a.position.length ∧
    off + len > a.position.offset)

/-- The body of the backfill's ingredient loop: skip covered ingredients,
skip ingredients the cascading search cannot place, reject overlapping
candidates, otherwise append the new annotation and mark the ingredient
covered. -/
def tryAddIngredient (stepText : Str) (st : List Annot × List Str)
    (ing : Ingredient) : List Annot × List Str :=
  if st.2.contains ing.text then st
  else
    match findIngredientInText ing.text stepText with
    | none => st
    | some (off, len) =>
      if overlapsExisting st.1 (off : Int) (len : Int) then st
      else
        (st.1 ++ [Annot.ingredient ing.text
            { offset := (off : Int), length := (len : Int) }],
         ing.text :: st.2)

/-- Stable insertion step for the final by-offset sort. -/
def insertByOffset (a : Annot) : List Annot → List Annot
  | [] => [a]
  | b :: bs =>
    if b.position.offset < a.position.offset then b :: insertByOffset a bs
    else a :: b :: bs

/-- `annotations.sort((a, b) => a.position.offset - b.position.offset)`:
JS array sort is stable (ES2019), modelled by a stable insertion sort on
ascending offset. -/
def sortByOffset : List Annot → List Annot
  | [] => []
  | a :: as' => insertByOffset a (sortByOffset as')

/-- The backfill applied to one step, threading the covered set (the
source's `coveredIngredients` is shared across the `map`): returns the
rewritten step together with the grown covered set. -/
def backfillStep (ingredients : List Ingredient) (covered : List Str)
    (step : Instruction) : Instruction × List Str :=
  let st := ingredients.foldl (tryAddIngredient step.text)
    (step.annotations.getD [], covered)
  ({ step with
     annotations :=
       if sortByOffset st.1 = [] then none else some (sortByOffset st.1) },
   st.2)

/-- The descriptions already covered by existing ingredient annotations
(the JS `Set` is used only through membership, so a list suffices). -/
def initiallyCovered (instructions : List Instruction) : List Str :=
  (instructions.map (fun s => (s.annotations.getD []).filterMap
    Annot.description)).flatten

/-- `addMissingIngredientAnnotations`: backfills an annotation for every
ingredient not already covered, scanning the steps in order, then sorts
each step's annotations by offset. -/
def addMissingIngredientAnnotations (patch : PatchRecipeRequest) :
    PatchRecipeRequest :=
  let ingredients := patch.ingredients.getD []
  let instructions := patch.instructions.getD []
  if ingredients = [] ∨ instructions = [] then patch
  else
    let folded := instructions.foldl
      (fun (acc : List Instruction × List Str) step =>
        let r := backfillStep ingredients acc.2 step
        (acc.1 ++ [r.1], r.2))
      ([], initiallyCovered instructions)
    { patch with instructions := some folded.1 }

/-- The reconciliation pipeline of `translateRecipe` after the upstream
text-generation call: Position Resolver, wire shaping, backfill. -/
def reconcile (t : TranslatedRecipe) : PatchRecipeRequest :=
  addMissingIngredientAnnotations
    (toCookidooPatch { t with instructions := fixAnnotationPositions t.instructions })

/-! ### The Session Negotiator's login transition (`src/cookidoo/auth.ts`)

Only the control flow between the credential POST and the start of the
second redirect chase is embedded (lines 149-165); the network itself is
abstracted into the received response. -/

/-- An HTTP response as the handshake observes it. -/
structure HttpResponse where
  status : Nat
  location : Option Str
deriving DecidableEq, Repr

/-- Outcome of the phase-2 → phase-3 transition.  `crash` models an
uncaught JavaScript `ReferenceError` (distinct from the `Error` values the
code throws deliberately, modelled by `failure`). -/
inductive Phase3Start where
  | proceed (url : Str)
  | failure (msg : Str)
  | crash
deriving DecidableEq, Repr

/-- `loc.startsWith("http")`. -/
def startsWithHttp (s : Str) : Bool := ("http".toList).isPrefixOf s

/-- The transition after the login POST (`auth.ts` lines 149-165): a
non-3xx status or a missing `Location` header throws a deliberate error;
an absolute `Location` becomes the next hop.  For an origin-relative
`Location` the source evaluates the template literal
`` `${loginOrigin}${callbackUrl}` `` — but `loginOrigin` is declared
nowhere in the module, so that branch raises `ReferenceError` at runtime
(and is a TypeScript compile error), embedded as `.crash`. -/
def phase3StartUrl (loginRes : HttpResponse) : Phase3Start :=
  if loginRes.status < 300 ∨ 400 ≤ loginRes.status then
    Phase3Start.failure
      ("Auth phase 2: login POST returned non-3xx (expected redirect)".toList)
  else
    match loginRes.location with
    | none =>
      Phase3Start.failure ("Auth phase 2: no Location header after login POST".toList)
    | some loc =>
      if startsWithHttp loc then Phase3Start.proceed loc
      else Phase3Start.crash

/-! ### `getImageDimensions` (`src/cookidoo/client.ts` lines 29-54)

The `Buffer` is a list of bytes; an out-of-range `buf[i]` is JavaScript
`undefined` (never equal to a byte), and an out-of-range
`readUInt32BE`/`readUInt16BE` throws a `RangeError` that the source's
`try/catch` converts into the fallback, so both reads return `Option`. -/

/-- `buf.readUInt32BE(off)`. -/
def readUInt32BE (buf : List Nat) (off : Nat) : Option Nat := do
  let b0 ← buf[off]?
  let b1 ← buf[off + 1]?
  let b2 ← buf[off + 2]?
  let b3 ← buf[off + 3]?
  some (((b0 * 256 + b1) * 256 + b2) * 256 + b3)

/-- `buf.readUInt16BE(off)`. -/
def readUInt16BE (buf : List Nat) (off : Nat) : Option Nat := do
  let b0 ← buf[off]?
  let b1 ← buf[off + 1]?
  some (b0 * 256 + b1)

/-- The fixed large bounding box used when no format is recognized. -/
def fallbackDims : Nat × Nat := (4000, 4000)

/-- The JPEG marker-segment scan (`while (offset < buf.length - 8)`); each
iteration advances `offset` by at least 2, so the fuel supplied by
`getImageDimensions` is never exhausted before the loop exits. -/
def jpegScanAux (buf : List Nat) : Nat → Nat → Nat × Nat
  | 0, _ => fallbackDims
  | fuel + 1, off =>
    if ¬ (off + 8 < buf.length) then fallbackDims
    else if buf[off]? ≠ some 0xff then fallbackDims
    else
      match buf[off + 1]? with
      | none => fallbackDims
      | some marker =>
        if marker = 0xc0 ∨ marker = 0xc2 then
          match readUInt16BE buf (off + 5), readUInt16BE buf (off + 7) with
          | some h, some w => (w, h)
          | _, _ => fallbackDims
        else
          match readUInt16BE buf (off + 2) with
          | none => fallbackDims
          | some len => jpegScanAux buf fuel (off + 2 + len)

/-- `getImageDimensions` as `(width, height)`: PNG dimensions from the
fixed header offsets, JPEG dimensions from the first SOF0/SOF2 segment,
and the fallback bounding box in every failure path. -/
def getImageDimensions (buf : List Nat) : Nat × Nat :=
  if buf[0]? = some 0x89 ∧ buf[1]? = some 0x50 then
    match readUInt32BE buf 16, readUInt32BE buf 20 with
    | some w, some h => (w, h)
    | _, _ => fallbackDims
  else if buf[0]? = some 0xff ∧ buf[1]? = some 0xd8 then
    jpegScanAux buf (buf.length + 1) 2
  else fallbackDims

/-! ### The Recipe API Client's existence check

`client.recipeExists(cachedId)` is called from `src/bulk.ts` (line 48) and
`src/index.ts` (line 155), but no implementation appears in the sources. -/

/-- The two session tokens of `CookidooAuth` (spec `SessionCredential`). -/
structure SessionCredential where
  vAuthenticated : Str
  oauth2Proxy : Str
deriving DecidableEq, Repr

/-- A `CookidooClient` instance: the session credential it owns. -/
structure CookidooClient where
  auth : SessionCredential
deriving DecidableEq, Repr

/-- Modelled from the spec: the implementation of
`CookidooClient.recipeExists` is missing from the sources (only its
callers in `bulk.ts` and `index.ts` survive).  Spec §4.4:
"`recipeExists(recipeId) -> boolean`: a read used by callers to decide
create-vs-update."  The recipe platform's state is abstracted as the list
of existing recipe ids, and the read requires an authenticated client. -/
def CookidooClient.recipeExists (_ : CookidooClient) (server : List Str)
    (recipeId : Str) : Bool :=
  server.contains recipeId

/-- The caller's create-vs-update decision. -/
inductive UpsertAction where
  | update (recipeId : Str)
  | create
deriving DecidableEq, Repr

/-- The upsert decision of `src/bulk.ts` lines 45-65: update exactly when
a cached id exists and `recipeExists` confirms it, else create. -/
def decideUpsert (client : CookidooClient) (server : List Str)
    (cachedId : Option Str) : UpsertAction :=
  match cachedId with
  | some cid =>
    if client.recipeExists server cid then UpsertAction.update cid
    else UpsertAction.create
  | none => UpsertAction.create

/-! ### Derived views of the backfill used to state its properties -/

/-- The backfill's step fold written as a recursion on the instruction
list (proved equal to the source's `foldl`): the rewritten steps. -/
def backfillSteps (ings : List Ingredient) : List Str → List Instruction → List Instruction
  | _, [] => []
  | cov, step :: rest =>
    (backfillStep ings cov step).1 ::
      backfillSteps ings (backfillStep ings cov step).2 rest

/-- The covered set after the backfill has processed the given steps. -/
def backfillCov (ings : List Ingredient) : List Str → List Instruction → List Str
  | cov, [] => cov
  | cov, step :: rest => backfillCov ings (backfillStep ings cov step).2 rest

/-- Number of annotations referring to the given ingredient description. -/
def descCount (d : Str) (anns : List Annot) : Nat :=
  anns.countP (fun a => a.description == some d)

/-- `descCount` of one instruction step. -/
def stepDescCount (d : Str) (i : Instruction) : Nat :=
  descCount d (i.annotations.getD [])

/-- `descCount` summed over a recipe's steps. -/
def totalDescCount (d : Str) (steps : List Instruction) : Nat :=
  (steps.map (stepDescCount d)).sum

/-! ### The claimed overlap invariant -/

/-- The claim's non-overlap condition on two annotations:
`a.offset + a.length <= b.offset or b.offset + b.length <= a.offset`. -/
def spansDisjoint (a b : Annot) : Prop :=
  a.position.offset + a.position.length ≤ b.position.offset ∨
  b.position.offset + b.position.length ≤ a.position.offset

instance (a b : Annot) : Decidable (spansDisjoint a b) := by
  unfold spansDisjoint
  infer_instance

/-- No two annotations of the instruction step overlap. -/
def stepNoOverlap (i : Instruction) : Prop :=
  (i.annotations.getD []).Pairwise spansDisjoint

instance (i : Instruction) : Decidable (stepNoOverlap i) := by
  unfold stepNoOverlap
  infer_instance

/-- The claimed invariant over a whole patch. -/
def patchNoOverlap (p : PatchRecipeRequest) : Prop :=
  ∀ i ∈ p.instructions.getD [], stepNoOverlap i

instance (p : PatchRecipeRequest) : Decidable (patchNoOverlap p) := by
  unfold patchNoOverlap
  infer_instance

/-! ### Equality of drafts up to tentative positions -/

/-- Two tentative annotations that agree on everything but the proposed
`offset`/`length`. -/
def annSameExceptPos (a b : AnnOut) : Prop :=
  a.type = b.type ∧ a.speed = b.speed ∧ a.timeSeconds = b.timeSeconds ∧
  a.temperatureValue = b.temperatureValue ∧ a.direction = b.direction ∧
  a.ingredientText = b.ingredientText

/-- Two draft steps that agree on everything but tentative positions. -/
def stepSameExceptPos (s t : StepOut) : Prop :=
  s.text = t.text ∧ List.Forall₂ annSameExceptPos s.annotations t.annotations

/-- Two drafts that agree on everything but tentative positions. -/
def draftSameExceptPos (d e : TranslatedRecipe) : Prop :=
  d.name = e.name ∧ d.ingredients = e.ingredients ∧
  d.totalTimeSeconds = e.totalTimeSeconds ∧
  d.prepTimeSeconds = e.prepTimeSeconds ∧ d.servings = e.servings ∧
  List.Forall₂ stepSameExceptPos d.instructions e.instructions

/-! ### Concrete inputs used by the claim examples and witnesses -/

/-- A tentative ingredient-reference annotation for the given mention text
(tentative position deliberately arbitrary — the resolver ignores it). -/
def exIngAnn (mention : Str) : AnnOut :=
  { type := AnnType.INGREDIENT, speed := [], timeSeconds := 0,
    temperatureValue := [], direction := [], ingredientText := mention,
    offset := 0, length := 1 }

/-- The C4 counterexample step: the proposed mention `"200 g cashewnoten"`
does not occur literally in the text, though the cascading search would
find `"cashewnoten"`. -/
def c4Step : StepOut :=
  { text := "Rooster de cashewnoten.".toList,
    annotations := [exIngAnn ("200 g cashewnoten".toList)] }

/-- A step with two identical proposed mentions, used to witness the
per-description cursor behaviour. -/
def c4WitnessStep : StepOut :=
  { text := "Meng de kaas en de kaas.".toList,
    annotations := [exIngAnn ("kaas".toList), exIngAnn ("kaas".toList)] }

/-- A tentative setting annotation with the given tentative position. -/
def exTTSAnn (off len : Int) : AnnOut :=
  { type := AnnType.TTS, speed := "5".toList, timeSeconds := 30,
    temperatureValue := [], direction := [], ingredientText := [],
    offset := off, length := len }

/-- A draft whose single step proposes one setting annotation with the
given tentative position. -/
def c2Draft (off len : Int) : TranslatedRecipe :=
  { name := "r".toList,
    ingredients := [{ text := "zout".toList }],
    instructions :=
      [{ text := "Meng: 30 sec/snelheid 5".toList,
         annotations := [exTTSAnn off len] }],
    totalTimeSeconds := 60, prepTimeSeconds := 30, servings := 2 }

/-- Counterexample draft for the overlap invariant: the step text is
`"ab"`, and the translator proposes mentions `"ab"` and `"b"`, whose
resolved spans `[0,2)` and `[1,2)` are nested. -/
def c1Draft : TranslatedRecipe :=
  { name := "r".toList,
    ingredients := [{ text := "ab".toList }, { text := "b".toList }],
    instructions :=
      [{ text := "ab".toList,
         annotations := [exIngAnn ("ab".toList), exIngAnn ("b".toList)] }],
    totalTimeSeconds := 0, prepTimeSeconds := 0, servings := 1 }

/-- A patch whose single step carries no annotations yet, used to witness
the amended overlap statement. -/
def c1WitnessPatch : PatchRecipeRequest :=
  { ingredients := some [{ text := "kaas".toList }],
    instructions :=
      some [{ text := "Voeg de kaas toe.".toList, annotations := none }] }

/-- The C5 example step text. -/
def c5Text : Str := "Rooster de cashewnoten tot ze goudbruin zijn.".toList

/-- The C5 example patch: the ingredient `"200 g cashewnoten"` is
mentioned in the step only as `"cashewnoten"` and carries no annotation
yet. -/
def c5ExamplePatch : PatchRecipeRequest :=
  { ingredients := some [{ text := "200 g cashewnoten".toList }],
    instructions := some [{ text := c5Text, annotations := none }] }

/-- The expected reconciliation of the C5 example: the ingredient is
backfilled at the `"cashewnoten"` occurrence, offset 11, length 11. -/
def c5ExpectedAnnot : Annot :=
  Annot.ingredient ("200 g cashewnoten".toList)
    { offset := 11, length := 11 }

/-- The patch the C5 example is expected to reconcile to. -/
def c5ExpectedPatch : PatchRecipeRequest :=
  { ingredients := some [{ text := "200 g cashewnoten".toList }],
    instructions :=
      some [{ text := c5Text, annotations := some [c5ExpectedAnnot] }] }

/-- A 302 login response with no `Location` header. -/
def loginResNoLocation : HttpResponse := { status := 302, location := none }

/-- A 302 login response with an absolute `Location` header. -/
def loginResAbsolute : HttpResponse :=
  { status := 302
    location := some ("https://cookidoo.be/oauth2/callback?code=abc".toList) }

/-- A 302 login response with an origin-relative `Location` header. -/
def loginResRelative : HttpResponse :=
  { status := 302, location := some ("/oauth2/callback?code=abc".toList) }

/-- The tentative setting annotation of the worked example (speed "10",
30 seconds), with deliberately wrong tentative position. -/
def c3ExampleAnn : AnnOut :=
  { type := AnnType.TTS, speed := "10".toList, timeSeconds := 30,
    temperatureValue := [], direction := [], ingredientText := [],
    offset := 5, length := 7 }

/-- The worked example step `"Meng alles: 30 sec/snelheid 10"`. -/
def c3ExampleStep : StepOut :=
  { text := "Meng alles: 30 sec/snelheid 10".toList,
    annotations := [c3ExampleAnn] }

/-! ## Properties of the string primitives -/

theorem findPrefixIdx_isPrefixOf {needle l : Str} {j : Nat}
    (h : findPrefixIdx needle l = some j) : needle.isPrefixOf (l.drop j) := by
  induction l generalizing j with
  | nil =>
    unfold findPrefixIdx at h
    by_cases hp : needle.isPrefixOf ([] : Str) = true
    · rw [if_pos hp] at h
      cases h
      simpa using hp
    · rw [if_neg hp] at h
      cases h
  | cons c cs ih =>
    unfold findPrefixIdx at h
    by_cases hp : needle.isPrefixOf (c :: cs) = true
    · rw [if_pos hp] at h
      cases h
      simpa using hp
    · rw [if_neg hp] at h
      rcases Option.map_eq_some'.mp h with ⟨j0, hj0, rfl⟩
      simpa using ih hj0

theorem findPrefixIdx_none {needle l : Str}
    (h : findPrefixIdx needle l = none) (j : Nat) :
    ¬ needle.isPrefixOf (l.drop j) := by
  induction l generalizing j with
  | nil =>
    unfold findPrefixIdx at h
    by_cases hp : needle.isPrefixOf ([] : Str) = true
    · rw [if_pos hp] at h
      cases h
    · simpa using hp
  | cons c cs ih =>
    unfold findPrefixIdx at h
    by_cases hp : needle.isPrefixOf (c :: cs) = true
    · rw [if_pos hp] at h
      cases h
    · rw [if_neg hp] at h
      cases j with
      | zero => simpa using hp
      | succ j0 =>
        have h0 : findPrefixIdx needle cs = none := Option.map_eq_none'.mp h
        simpa using ih h0 j0

theorem isPrefixOf_take_eq {needle l : Str} (h : needle.isPrefixOf l) :
    l.take needle.length = needle := by
  have hp : needle <+: l := List.isPrefixOf_iff_prefix.mp h
  exact (List.prefix_iff_eq_take.mp hp).symm

/-- A successful `indexOf` round-trips: the substring at the reported
position is the needle. -/
theorem indexOfFrom_substring {t needle : Str} {s i : Nat}
    (h : indexOfFrom t needle s = some i) :
    jsSubstring t i needle.length = needle := by
  unfold indexOfFrom at h
  rcases Option.map_eq_some'.mp h with ⟨j, hj, rfl⟩
  have hpre := findPrefixIdx_isPrefixOf hj
  have : t.drop (j + min s t.length) = (t.drop (min s t.length)).drop j := by
    rw [List.drop_drop, Nat.add_comm]
  unfold jsSubstring
  rw [this]
  exact isPrefixOf_take_eq hpre

/-- A successful `indexOf` with a non-empty needle reports a position at or
after the search start. -/
theorem indexOfFrom_ge {t needle : Str} {s i : Nat}
    (h : indexOfFrom t needle s = some i) (hne : needle ≠ []) : s ≤ i := by
  unfold indexOfFrom at h
  rcases Option.map_eq_some'.mp h with ⟨j, hj, rfl⟩
  rcases Nat.le_total s t.length with hle | hge
  · calc s = min s t.length := (Nat.min_eq_left hle).symm
      _ ≤ j + min s t.length := Nat.le_add_left _ _
  · exfalso
    have hdrop : t.drop (min s t.length) = [] := by
      rw [Nat.min_eq_right hge]
      simp
    rw [hdrop] at hj
    have := findPrefixIdx_isPrefixOf hj
    rw [List.drop_nil] at this
    exact hne (by simpa using this)

/-- An occurrence anywhere makes plain `indexOf` succeed. -/
theorem indexOf_isSome_of_occurrence {t needle : Str} {n : Nat}
    (h : needle.isPrefixOf (t.drop n)) : (indexOf t needle).isSome := by
  unfold indexOf indexOfFrom
  cases h0 : findPrefixIdx needle (t.drop (min 0 t.length)) with
  | some j => simp
  | none =>
    exfalso
    simp only [Nat.min_eq_left (Nat.zero_le _), List.drop_zero] at h0
    exact findPrefixIdx_none h0 n h

/-- Every recorded scan match is a genuine pattern match at its index. -/
theorem ttsScanAux_sound {text : Str} :
    ∀ {fuel p : Nat} {q : Nat × Nat}, q ∈ ttsScanAux text fuel p →
      matchTTS (text.drop q.1) = some q.2 := by
  intro fuel
  induction fuel with
  | zero => intro p q h; simp [ttsScanAux] at h
  | succ n ih =>
    intro p q h
    unfold ttsScanAux at h
    split at h
    · simp at h
    · split at h
      · rcases List.mem_cons.mp h with rfl | h2
        · assumption
        · exact ih h2
      · exact ih h

/-- Every recorded scan match is a genuine pattern match (top level). -/
theorem ttsMatchAll_sound {text : Str} {q : Nat × Nat}
    (h : q ∈ ttsMatchAll text) : matchTTS (text.drop q.1) = some q.2 :=
  ttsScanAux_sound h

/-! ## C8 — login redirect capture -/

/-- C8: after a successful credential POST (3xx) the Session Negotiator
captures the `Location` header as the next hop and a missing header is a
failure — but the claim that an origin-relative header is resolved
correctly fails: that branch evaluates the undeclared identifier
`loginOrigin` and crashes (`ReferenceError`), so only the absolute case
proceeds.  The three conjuncts evaluate the embedded transition on a
missing header, an absolute header, and a relative header. -/
theorem c8_login_redirect_transition :
    phase3StartUrl loginResNoLocation =
      Phase3Start.failure
        ("Auth phase 2: no Location header after login POST".toList) ∧
    phase3StartUrl loginResAbsolute =
      Phase3Start.proceed ("https://cookidoo.be/oauth2/callback?code=abc".toList) ∧
    phase3StartUrl loginResRelative = Phase3Start.crash := by
  refine ⟨by decide, by decide, by decide⟩

/-! ## C9 — image dimensions -/

/-- C9: `getImageDimensions` is total (its embedding returns a plain pair;
every fallible read is an explicit `Option` absorbed below): a buffer with
the PNG signature and a complete header yields exactly the width and
height read big-endian at byte offsets 16 and 20; a PNG-signature buffer
whose header reads fail (truncated) and a buffer with neither the PNG nor
the JPEG signature (corrupt/unrecognized) yield the 4000×4000 fallback. -/
theorem c9_getImageDimensions_total :
    (∀ (buf : List Nat) (w h : Nat),
      buf[0]? = some 0x89 → buf[1]? = some 0x50 →
      readUInt32BE buf 16 = some w → readUInt32BE buf 20 = some h →
      getImageDimensions buf = (w, h)) ∧
    (∀ buf : List Nat,
      buf[0]? = some 0x89 → buf[1]? = some 0x50 →
      (readUInt32BE buf 16 = none ∨ readUInt32BE buf 20 = none) →
      getImageDimensions buf = (4000, 4000)) ∧
    (∀ buf : List Nat,
      ¬ (buf[0]? = some 0x89 ∧ buf[1]? = some 0x50) →
      ¬ (buf[0]? = some 0xff ∧ buf[1]? = some 0xd8) →
      getImageDimensions buf = (4000, 4000)) := by
  refine ⟨?_, ?_, ?_⟩
  · intro buf w h h0 h1 hw hh
    simp [getImageDimensions, h0, h1, hw, hh]
  · intro buf h0 h1 hfail
    rcases hfail with hw | hh
    · simp [getImageDimensions, h0, h1, hw, fallbackDims]
    · cases hw : readUInt32BE buf 16 <;>
        simp [getImageDimensions, h0, h1, hw, hh, fallbackDims]
  · intro buf hpng hjpg
    simp [getImageDimensions, if_neg hpng, if_neg hjpg, fallbackDims]

/-- Witness for C9: a concrete 24-byte PNG header yields its recorded
5×7 dimensions, and the 2-byte truncation of the signature alone falls
back to 4000×4000. -/
theorem c9_getImageDimensions_total_witness :
    getImageDimensions
      [0x89, 0x50, 0x4e, 0x47, 0x0d, 0x0a, 0x1a, 0x0a, 0, 0, 0, 13,
       0x49, 0x48, 0x44, 0x52, 0, 0, 0, 5, 0, 0, 0, 7] = (5, 7) ∧
    getImageDimensions [0x89, 0x50] = (4000, 4000) :=
  ⟨c9_getImageDimensions_total.1 _ 5 7 (by decide) (by decide) (by decide)
      (by decide),
   c9_getImageDimensions_total.2.1 _ (by decide) (by decide)
      (Or.inl (by decide))⟩

/-! ## C10 — recipeExists -/

/-- C10 (spec-modelled: the `recipeExists` implementation is absent from
the sources): the Recipe API Client offers `recipeExists`, a boolean read
of whether the recipe id exists on the platform, and the bulk importer
uses it to decide create-vs-update — update exactly when a cached id is
present and confirmed to exist. -/
theorem c10_recipeExists_contract :
    (∀ (c : CookidooClient) (server : List Str) (id : Str),
      id ∈ server → c.recipeExists server id = true) ∧
    (∀ (c : CookidooClient) (server : List Str) (id : Str),
      c.recipeExists server id = true → id ∈ server) ∧
    (∀ (c : CookidooClient) (server : List Str) (cid : Str),
      c.recipeExists server cid = true →
      decideUpsert c server (some cid) = UpsertAction.update cid) ∧
    (∀ (c : CookidooClient) (server : List Str) (cid : Str),
      c.recipeExists server cid = false →
      decideUpsert c server (some cid) = UpsertAction.create) ∧
    (∀ (c : CookidooClient) (server : List Str),
      decideUpsert c server none = UpsertAction.create) := by
  refine ⟨?_, ?_, ?_, ?_, ?_⟩
  · intro c server id h
    simpa [CookidooClient.recipeExists] using h
  · intro c server id h
    simpa [CookidooClient.recipeExists] using h
  · intro c server cid h
    simp [decideUpsert, h]
  · intro c server cid h
    simp [decideUpsert, h]
  · intro c server
    simp [decideUpsert]

/-! ## C7 — idempotence of the Position Resolver -/

/-- Once the scan matches are exhausted every subsequent TTS annotation is
dropped, so the loop's output contains no TTS annotation. -/
theorem fixAnnList_noTTS_of_exhausted (text : Str) (ms : List (Nat × Nat)) :
    ∀ (anns : List AnnOut) (ti : Nat) (m : Str → Nat), ms.length ≤ ti →
      ∀ a ∈ fixAnnList text ms anns ti m, a.type ≠ AnnType.TTS := by
  intro anns
  induction anns with
  | nil => intro ti m _ a ha; simp [fixAnnList] at ha
  | cons ann rest ih =>
    intro ti m hle a ha
    cases hty : ann.type with
    | TTS =>
      have hget : ms[ti]? = none := List.getElem?_eq_none hle
      rw [fixAnnList] at ha
      simp only [hty, hget] at ha
      exact ih (ti + 1) m (Nat.le_succ_of_le hle) a ha
    | INGREDIENT =>
      rw [fixAnnList] at ha
      simp only [hty] at ha
      by_cases hdesc : ann.ingredientText = []
      · rw [if_pos hdesc] at ha
        exact ih ti m hle a ha
      · rw [if_neg hdesc] at ha
        cases hidx : indexOfFrom text ann.ingredientText (m ann.ingredientText) with
        | none =>
          rw [hidx] at ha
          exact ih ti m hle a ha
        | some idx =>
          rw [hidx] at ha
          rcases List.mem_cons.mp ha with rfl | ha2
          · simp [hty]
          · exact ih ti _ hle a ha2

/-- On a list without TTS annotations the loop ignores the TTS index. -/
theorem fixAnnList_ti_irrelevant (text : Str) (ms : List (Nat × Nat)) :
    ∀ (anns : List AnnOut), (∀ a ∈ anns, a.type ≠ AnnType.TTS) →
      ∀ (t1 t2 : Nat) (m : Str → Nat),
        fixAnnList text ms anns t1 m = fixAnnList text ms anns t2 m := by
  intro anns
  induction anns with
  | nil => intro _ t1 t2 m; rfl
  | cons ann rest ih =>
    intro hno t1 t2 m
    have hty : ann.type = AnnType.INGREDIENT := by
      cases h : ann.type with
      | TTS => exact absurd h (hno ann (List.mem_cons_self _ _))
      | INGREDIENT => rfl
    have hrest : ∀ a ∈ rest, a.type ≠ AnnType.TTS :=
      fun a ha => hno a (List.mem_cons_of_mem _ ha)
    rw [fixAnnList, fixAnnList]
    simp only [hty]
    by_cases hdesc : ann.ingredientText = []
    · rw [if_pos hdesc, if_pos hdesc]
      exact ih hrest t1 t2 m
    · rw [if_neg hdesc, if_neg hdesc]
      cases hidx : indexOfFrom text ann.ingredientText (m ann.ingredientText) with
      | none => exact ih hrest t1 t2 m
      | some idx =>
        dsimp only
        rw [ih hrest t1 t2]

/-- Re-running the annotation loop on its own output from the same initial
state reproduces that output exactly. -/
theorem fixAnnList_idem (text : Str) (ms : List (Nat × Nat)) :
    ∀ (anns : List AnnOut) (ti : Nat) (m : Str → Nat),
      fixAnnList text ms (fixAnnList text ms anns ti m) ti m =
        fixAnnList text ms anns ti m := by
  intro anns
  induction anns with
  | nil => intro ti m; rfl
  | cons ann rest ih =>
    intro ti m
    cases hty : ann.type with
    | TTS =>
      cases hget : ms[ti]? with
      | none =>
        rw [fixAnnList]
        simp only [hty, hget]
        have hle : ms.length ≤ ti := by
          by_contra hlt
          push_neg at hlt
          simp [List.getElem?_eq_getElem hlt] at hget
        have hno : ∀ a ∈ fixAnnList text ms rest (ti + 1) m,
            a.type ≠ AnnType.TTS :=
          fixAnnList_noTTS_of_exhausted text ms rest (ti + 1) m
            (Nat.le_succ_of_le hle)
        rw [fixAnnList_ti_irrelevant text ms _ hno ti (ti + 1) m]
        exact ih (ti + 1) m
      | some q =>
        rw [fixAnnList]
        simp only [hty, hget]
        rw [fixAnnList]
        have hty2 :
            ({ ann with offset := (q.1 : Int), length := (q.2 : Int) } : AnnOut).type = AnnType.TTS :=
          hty
        simp only [hty2, hget]
        rw [ih (ti + 1) m]
    | INGREDIENT =>
      rw [fixAnnList]
      simp only [hty]
      by_cases hdesc : ann.ingredientText = []
      · rw [if_pos hdesc]
        exact ih ti m
      · rw [if_neg hdesc]
        cases hidx : indexOfFrom text ann.ingredientText (m ann.ingredientText) with
        | none => exact ih ti m
        | some idx =>
          dsimp only
          rw [fixAnnList]
          have hty2 :
              ({ ann with offset := (idx : Int), length := (ann.ingredientText.length : Int) } : AnnOut).type = AnnType.INGREDIENT :=
            hty
          simp only [hty2]
          rw [if_neg hdesc, hidx]
          dsimp only
          rw [ih ti _]

/-- One resolver pass is a fixed point of a second pass, step-wise. -/
theorem fixStep_idem (s : StepOut) : fixStep (fixStep s) = fixStep s := by
  by_cases h : s.annotations = []
  · simp [fixStep, h]
  · have hs : fixStep s =
        { s with annotations :=
            fixAnnList s.text (ttsMatchAll s.text) s.annotations 0 (fun _ => 0) } := by
      simp only [fixStep, if_neg h]
    by_cases hL : fixAnnList s.text (ttsMatchAll s.text) s.annotations 0
        (fun _ => 0) = []
    · rw [hs]
      simp [fixStep, hL]
    · rw [hs]
      simp only [fixStep, if_neg hL]
      congr 1
      exact fixAnnList_idem s.text (ttsMatchAll s.text) s.annotations 0 _

/-- C7: the Position Resolver is idempotent — running
`fixAnnotationPositions` on its own output returns exactly the same steps
and annotations, with the same offsets and lengths and nothing further
dropped. -/
theorem c7_resolver_idempotent (steps : List StepOut) :
    fixAnnotationPositions (fixAnnotationPositions steps) =
      fixAnnotationPositions steps := by
  unfold fixAnnotationPositions
  rw [List.map_map]
  exact List.map_congr_left (fun s _ => fixStep_idem s)

/-! ## C3 — TTS pairing -/

/-- The TTS positions produced by the annotation loop are exactly the scan
matches from index `ti` on, one per proposed TTS annotation, in order. -/
theorem fixAnnList_tts_positions (text : Str) (ms : List (Nat × Nat)) :
    ∀ (anns : List AnnOut) (ti : Nat) (m : Str → Nat),
      ((fixAnnList text ms anns ti m).filter
          (fun a => a.type == AnnType.TTS)).map (fun a => (a.offset, a.length)) =
        ((ms.drop ti).take
            (anns.countP (fun a => a.type == AnnType.TTS))).map
          (fun q => ((q.1 : Int), (q.2 : Int))) := by
  intro anns
  induction anns with
  | nil => intro ti m; simp [fixAnnList]
  | cons ann rest ih =>
    intro ti m
    cases hty : ann.type with
    | TTS =>
      cases hget : ms[ti]? with
      | none =>
        have hlen : ms.length ≤ ti := by
          by_contra hlt
          push_neg at hlt
          simp [List.getElem?_eq_getElem hlt] at hget
        have hd1 : ms.drop ti = [] := List.drop_eq_nil_of_le hlen
        have hd2 : ms.drop (ti + 1) = [] :=
          List.drop_eq_nil_of_le (Nat.le_succ_of_le hlen)
        simp only [fixAnnList, hty, hget, ih (ti + 1) m, hd1, hd2]
        simp
      | some q =>
        have hlt : ti < ms.length := by
          by_contra hge
          push_neg at hge
          simp [List.getElem?_eq_none hge] at hget
        have hdrop : ms.drop ti = q :: ms.drop (ti + 1) := by
          rw [List.drop_eq_getElem_cons hlt]
          have : ms[ti] = q := by
            have := List.getElem?_eq_getElem hlt
            rw [hget] at this
            exact (Option.some.injEq _ _).mp this.symm
          rw [this]
        simp only [fixAnnList, hty, hget]
        rw [List.filter_cons_of_pos (by simp [hty]),
          List.countP_cons_of_pos _ _ (by simp [hty]), hdrop]
        simp only [List.map_cons, List.take_succ_cons, ih (ti + 1) m]
    | INGREDIENT =>
      have hcount :
          (ann :: rest).countP (fun a => a.type == AnnType.TTS) =
            rest.countP (fun a => a.type == AnnType.TTS) :=
        List.countP_cons_of_neg _ _ (by simp [hty])
      by_cases hdesc : ann.ingredientText = []
      · simp only [fixAnnList, hty, if_pos hdesc, hcount, ih ti m]
      · cases hidx : indexOfFrom text ann.ingredientText (m ann.ingredientText) with
        | none => simp only [fixAnnList, hty, if_neg hdesc, hidx, hcount, ih ti m]
        | some idx =>
          simp only [fixAnnList, hty, if_neg hdesc, hidx, hcount]
          rw [List.filter_cons_of_neg (by simp [hty])]
          exact ih ti _

/-- C3: the Position Resolver pairs the i-th proposed setting annotation
with the i-th appliance-notation match in scan order — the resolved TTS
positions of a step are exactly the first `k` scan matches, where `k` is
the number of proposed setting annotations, so surplus proposals are
dropped (the output is total, never raising).  On the worked example the
single proposal resolves to offset 12, length 18, covering the substring
`"30 sec/snelheid 10"`. -/
theorem c3_tts_pairing :
    (∀ step : StepOut,
      (((fixStep step).annotations.filter
          (fun a => a.type == AnnType.TTS)).map (fun a => (a.offset, a.length)) =
        ((ttsMatchAll step.text).take
            (step.annotations.countP (fun a => a.type == AnnType.TTS))).map
          (fun q => ((q.1 : Int), (q.2 : Int))))) ∧
    (fixStep c3ExampleStep).annotations =
      [{ c3ExampleAnn with offset := 12, length := 18 }] ∧
    ttsMatchAll c3ExampleStep.text = [(12, 18)] ∧
    jsSubstring c3ExampleStep.text 12 18 = "30 sec/snelheid 10".toList := by
  refine ⟨?_, by decide, by decide, by decide⟩
  intro step
  by_cases h : step.annotations = []
  · simp [fixStep, h]
  · simp only [fixStep, if_neg h]
    exact fixAnnList_tts_positions step.text (ttsMatchAll step.text)
      step.annotations 0 (fun _ => 0)

/-! ## C5 — the backfill -/

theorem insertByOffset_perm (a : Annot) (l : List Annot) :
    List.Perm (insertByOffset a l) (a :: l) := by
  induction l with
  | nil => exact List.Perm.refl _
  | cons b bs ih =>
    rw [insertByOffset]
    by_cases h : b.position.offset < a.position.offset
    · rw [if_pos h]
      exact (ih.cons b).trans (List.Perm.swap a b bs)
    · rw [if_neg h]

theorem sortByOffset_perm (l : List Annot) :
    List.Perm (sortByOffset l) l := by
  induction l with
  | nil => exact List.Perm.refl _
  | cons a as' ih => exact (insertByOffset_perm a (sortByOffset as')).trans (ih.cons a)


/-- The backfill's `foldl` over the steps equals its recursive view. -/
theorem backfillFold_eq (ings : List Ingredient) :
    ∀ (steps : List Instruction) (acc : List Instruction) (cov : List Str),
      steps.foldl
        (fun (acc : List Instruction × List Str) step =>
          (acc.1 ++ [(backfillStep ings acc.2 step).1],
           (backfillStep ings acc.2 step).2)) (acc, cov) =
      (acc ++ backfillSteps ings cov steps, backfillCov ings cov steps) := by
  intro steps
  induction steps with
  | nil => intro acc cov; simp [backfillSteps, backfillCov]
  | cons step rest ih =>
    intro acc cov
    rw [List.foldl_cons, backfillSteps, backfillCov]
    rw [ih]
    simp

theorem cons_contains_of_ne {x d : Str} {cov : List Str} (h : x ≠ d) :
    (x :: cov).contains d = cov.contains d := by
  simp only [List.contains_cons]
  rw [show (d == x) = false from beq_eq_false_iff_ne.mpr (fun he => h he.symm)]
  simp

/-- Complete description-count/coverage case analysis of the ingredient
fold: a covered description gains nothing; an uncovered one gains at most
one annotation and is covered afterwards exactly when it gained one. -/
theorem foldIngredients_count (txt : Str) (ings : List Ingredient) (d : Str) :
    ∀ st : List Annot × List Str,
      (st.2.contains d = true →
        ((ings.foldl (tryAddIngredient txt) st).1.countP
            (fun a => a.description == some d) =
          st.1.countP (fun a => a.description == some d) ∧
         ((ings.foldl (tryAddIngredient txt) st).2.contains d = true))) ∧
      (st.2.contains d = false →
        (((ings.foldl (tryAddIngredient txt) st).1.countP
              (fun a => a.description == some d) =
            st.1.countP (fun a => a.description == some d) ∧
          (ings.foldl (tryAddIngredient txt) st).2.contains d = false) ∨
         ((ings.foldl (tryAddIngredient txt) st).1.countP
              (fun a => a.description == some d) =
            st.1.countP (fun a => a.description == some d) + 1 ∧
          (ings.foldl (tryAddIngredient txt) st).2.contains d = true))) := by
  induction ings with
  | nil =>
    intro st
    exact ⟨fun h => ⟨rfl, h⟩, fun h => Or.inl ⟨rfl, h⟩⟩
  | cons ing rest ih =>
    intro st
    rw [List.foldl_cons]
    have hcases :
        tryAddIngredient txt st ing = st ∨
        ∃ off len : Nat, st.2.contains ing.text = false ∧
          tryAddIngredient txt st ing =
            (st.1 ++ [Annot.ingredient ing.text
                { offset := (off : Int), length := (len : Int) }],
             ing.text :: st.2) := by
      unfold tryAddIngredient
      by_cases hc : st.2.contains ing.text = true
      · rw [if_pos hc]
        exact Or.inl rfl
      · rw [if_neg hc]
        cases hf : findIngredientInText ing.text txt with
        | none => exact Or.inl rfl
        | some r =>
          obtain ⟨off0, len0⟩ := r
          dsimp only
          by_cases ho : overlapsExisting st.1 (off0 : Int) (len0 : Int) = true
          · rw [if_pos ho]
            exact Or.inl rfl
          · rw [if_neg ho]
            exact Or.inr ⟨off0, len0, Bool.eq_false_iff.mpr hc, rfl⟩
    rcases hcases with heq | ⟨off, len, hc, heq⟩
    · rw [heq]
      exact ih st
    · rw [heq]
      by_cases hxd : ing.text = d
      · subst hxd
        constructor
        · intro hcov
          rw [hcov] at hc
          cases hc
        · intro _
          have hcov2 : (ing.text :: st.2).contains ing.text = true := by
            simp [List.contains_cons]
          have hrec := (ih (st.1 ++ [Annot.ingredient ing.text
              { offset := (off : Int), length := (len : Int) }],
            ing.text :: st.2)).1 hcov2
          refine Or.inr ⟨?_, hrec.2⟩
          rw [hrec.1]
          rw [List.countP_append]
          simp [Annot.description]
      · have hcontains : (ing.text :: st.2).contains d = st.2.contains d :=
          cons_contains_of_ne hxd
        have hcount :
            (st.1 ++ [Annot.ingredient ing.text
                { offset := (off : Int), length := (len : Int) }]).countP
              (fun a => a.description == some d) =
            st.1.countP (fun a => a.description == some d) := by
          rw [List.countP_append]
          simp [Annot.description, hxd]
        have ihx := ih (st.1 ++ [Annot.ingredient ing.text
            { offset := (off : Int), length := (len : Int) }],
          ing.text :: st.2)
        constructor
        · intro hcov
          have hrec := ihx.1 (by rw [hcontains]; exact hcov)
          rw [hcount] at hrec
          exact hrec
        · intro hcov
          have hrec := ihx.2 (by rw [hcontains]; exact hcov)
          rw [hcount] at hrec
          exact hrec

/-- Per-step description-count/coverage case analysis of `backfillStep`. -/
theorem backfillStep_count (ings : List Ingredient) (cov : List Str)
    (step : Instruction) (d : Str) :
    (cov.contains d = true →
      stepDescCount d (backfillStep ings cov step).1 = stepDescCount d step ∧
      (backfillStep ings cov step).2.contains d = true) ∧
    (cov.contains d = false →
      (stepDescCount d (backfillStep ings cov step).1 = stepDescCount d step ∧
        (backfillStep ings cov step).2.contains d = false) ∨
      (stepDescCount d (backfillStep ings cov step).1 =
          stepDescCount d step + 1 ∧
        (backfillStep ings cov step).2.contains d = true)) := by
  have hkey := foldIngredients_count step.text ings d
    (step.annotations.getD [], cov)
  have houtcount :
      stepDescCount d (backfillStep ings cov step).1 =
        ((ings.foldl (tryAddIngredient step.text)
          (step.annotations.getD [], cov)).1).countP
            (fun a => a.description == some d) := by
    unfold backfillStep stepDescCount descCount
    by_cases hempty :
        sortByOffset ((ings.foldl (tryAddIngredient step.text)
          (step.annotations.getD [], cov)).1) = []
    · simp only [hempty, if_pos rfl, Option.getD_none]
      have hperm := sortByOffset_perm ((ings.foldl (tryAddIngredient step.text)
        (step.annotations.getD [], cov)).1)
      rw [hempty] at hperm
      rw [← hperm.countP_eq]
      rfl
    · simp only [if_neg hempty, Option.getD_some]
      exact ((sortByOffset_perm _).countP_eq _)
  have hcov2 : (backfillStep ings cov step).2 =
      (ings.foldl (tryAddIngredient step.text)
        (step.annotations.getD [], cov)).2 := rfl
  rw [houtcount, hcov2]
  exact hkey

/-- Whole-recipe description counts through the backfill: a description
covered on entry gains nothing, and any description gains at most one
annotation in total. -/
theorem backfillSteps_count (ings : List Ingredient) (d : Str) :
    ∀ (steps : List Instruction) (cov : List Str),
      (cov.contains d = true →
        totalDescCount d (backfillSteps ings cov steps) =
          totalDescCount d steps ∧
        (backfillCov ings cov steps).contains d = true) ∧
      (totalDescCount d (backfillSteps ings cov steps) ≤
        totalDescCount d steps + 1) := by
  intro steps
  induction steps with
  | nil =>
    intro cov
    exact ⟨fun h => ⟨rfl, h⟩, Nat.le_succ _⟩
  | cons step rest ih =>
    intro cov
    rw [backfillSteps]
    have hstep := backfillStep_count ings cov step d
    have htot : ∀ (i : Instruction) (l : List Instruction),
        totalDescCount d (i :: l) = stepDescCount d i + totalDescCount d l := by
      intro i l
      unfold totalDescCount
      simp
    constructor
    · intro hcov
      obtain ⟨hcnt, hcov2⟩ := hstep.1 hcov
      obtain ⟨hrest, hcovfin⟩ := (ih _).1 hcov2
      constructor
      · rw [htot, htot, hcnt, hrest]
      · rw [backfillCov]
        exact hcovfin
    · by_cases hcov : cov.contains d = true
      · obtain ⟨hcnt, hcov2⟩ := hstep.1 hcov
        obtain ⟨hrest, _⟩ := (ih _).1 hcov2
        rw [htot, htot, hcnt, hrest]
        exact Nat.le_succ _
      · rcases hstep.2 (Bool.eq_false_iff.mpr hcov) with ⟨hcnt, hcov2⟩ | ⟨hcnt, hcov2⟩
        · have hrest := (ih ((backfillStep ings cov step).2)).2
          rw [htot, htot, hcnt]
          omega
        · obtain ⟨hrest, _⟩ := (ih _).1 hcov2
          rw [htot, htot, hcnt, hrest]
          omega

/-- C5: the Reconciler's backfill — for every ingredient whose exact text
is not already the description of an existing ingredient annotation, the
steps are scanned in order with the cascading search; a candidate
overlapping an existing annotation is rejected; an accepted candidate is
added at the found position and the ingredient is covered for the rest of
the recipe (an already-covered description never gains an annotation, and
no description ever gains more than one).  On the example, ingredient
`"200 g cashewnoten"` is backfilled at the `"cashewnoten"` occurrence
found by the quantity-stripped path (the exact-text search fails). -/
theorem c5_backfill_contract :
    (∀ (txt : Str) (anns : List Annot) (cov : List Str)
        (ing : Ingredient), cov.contains ing.text = true →
      tryAddIngredient txt (anns, cov) ing = (anns, cov)) ∧
    (∀ (txt : Str) (anns : List Annot) (cov : List Str)
        (ing : Ingredient), cov.contains ing.text = false →
      findIngredientInText ing.text txt = none →
      tryAddIngredient txt (anns, cov) ing = (anns, cov)) ∧
    (∀ (txt : Str) (anns : List Annot) (cov : List Str)
        (ing : Ingredient) (off len : Nat), cov.contains ing.text = false →
      findIngredientInText ing.text txt = some (off, len) →
      overlapsExisting anns (off : Int) (len : Int) = true →
      tryAddIngredient txt (anns, cov) ing = (anns, cov)) ∧
    (∀ (txt : Str) (anns : List Annot) (cov : List Str)
        (ing : Ingredient) (off len : Nat), cov.contains ing.text = false →
      findIngredientInText ing.text txt = some (off, len) →
      overlapsExisting anns (off : Int) (len : Int) = false →
      tryAddIngredient txt (anns, cov) ing =
        (anns ++ [Annot.ingredient ing.text
            { offset := (off : Int), length := (len : Int) }],
         ing.text :: cov)) ∧
    (∀ (patch : PatchRecipeRequest) (d : Str),
      (initiallyCovered (patch.instructions.getD [])).contains d = true →
      totalDescCount d
          ((addMissingIngredientAnnotations patch).instructions.getD []) =
        totalDescCount d (patch.instructions.getD [])) ∧
    (∀ (patch : PatchRecipeRequest) (d : Str),
      totalDescCount d
          ((addMissingIngredientAnnotations patch).instructions.getD []) ≤
        totalDescCount d (patch.instructions.getD []) + 1) ∧
    (addMissingIngredientAnnotations c5ExamplePatch = c5ExpectedPatch ∧
      indexOf c5Text ("200 g cashewnoten".toList) = none ∧
      jsTrim (stripQty ("200 g cashewnoten".toList)) = "cashewnoten".toList ∧
      indexOf c5Text ("cashewnoten".toList) = some 11 ∧
      findIngredientInText ("200 g cashewnoten".toList) c5Text =
        some (11, 11)) := by
  refine ⟨?_, ?_, ?_, ?_, ?_, ?_, by decide, by decide, by decide, by decide,
    by decide⟩
  · intro txt anns cov ing hc
    unfold tryAddIngredient
    rw [if_pos hc]
  · intro txt anns cov ing hc hf
    unfold tryAddIngredient
    rw [if_neg (Bool.eq_false_iff.mp hc ·), hf]
  · intro txt anns cov ing off len hc hf ho
    unfold tryAddIngredient
    rw [if_neg (Bool.eq_false_iff.mp hc ·), hf]
    dsimp only
    rw [if_pos ho]
  · intro txt anns cov ing off len hc hf ho
    unfold tryAddIngredient
    rw [if_neg (Bool.eq_false_iff.mp hc ·), hf]
    dsimp only
    rw [if_neg (Bool.eq_false_iff.mp ho ·)]
  · intro patch d hcov
    unfold addMissingIngredientAnnotations
    by_cases hguard : patch.ingredients.getD [] = [] ∨
        patch.instructions.getD [] = []
    · rw [if_pos hguard]
    · rw [if_neg hguard]
      dsimp only
      rw [backfillFold_eq]
      dsimp only
      rw [List.nil_append, Option.getD_some]
      exact ((backfillSteps_count (patch.ingredients.getD []) d
        (patch.instructions.getD [])
        (initiallyCovered (patch.instructions.getD []))).1 hcov).1
  · intro patch d
    unfold addMissingIngredientAnnotations
    by_cases hguard : patch.ingredients.getD [] = [] ∨
        patch.instructions.getD [] = []
    · rw [if_pos hguard]
      exact Nat.le_succ _
    · rw [if_neg hguard]
      dsimp only
      rw [backfillFold_eq]
      dsimp only
      rw [List.nil_append, Option.getD_some]
      exact (backfillSteps_count (patch.ingredients.getD []) d
        (patch.instructions.getD [])
        (initiallyCovered (patch.instructions.getD []))).2

/-- Witness for C5: the covered-skip equation at a concrete state, and the
at-most-one bound instantiated on the example patch. -/
theorem c5_backfill_contract_witness :
    tryAddIngredient c5Text ([], ["200 g cashewnoten".toList])
        { text := "200 g cashewnoten".toList } =
      ([], ["200 g cashewnoten".toList]) ∧
    totalDescCount ("zout".toList)
        ((addMissingIngredientAnnotations c5ExamplePatch).instructions.getD []) ≤
      totalDescCount ("zout".toList) (c5ExamplePatch.instructions.getD []) + 1 :=
  ⟨c5_backfill_contract.1 c5Text [] (["200 g cashewnoten".toList])
      { text := "200 g cashewnoten".toList } (by decide),
   c5_backfill_contract.2.2.2.2.2.1 c5ExamplePatch ("zout".toList)⟩

/-! ## C4 — the resolver's ingredient search -/

/-- Every ingredient annotation the resolver keeps has a non-empty mention
that occurs literally in the text: its length is the mention's length and
the substring at its offset is exactly the mention. -/
theorem fixAnnList_ingredient_exact (text : Str) (ms : List (Nat × Nat)) :
    ∀ (anns : List AnnOut) (ti : Nat) (m : Str → Nat),
      ∀ a ∈ fixAnnList text ms anns ti m, a.type = AnnType.INGREDIENT →
        a.ingredientText ≠ [] ∧ a.length = (a.ingredientText.length : Int) ∧
        ∃ n : Nat, a.offset = (n : Int) ∧
          jsSubstring text n a.ingredientText.length = a.ingredientText := by
  intro anns
  induction anns with
  | nil => intro ti m a ha; simp [fixAnnList] at ha
  | cons ann rest ih =>
    intro ti m a ha
    rw [fixAnnList] at ha
    cases hty : ann.type with
    | TTS =>
      simp only [hty] at ha
      cases hget : ms[ti]? with
      | none =>
        rw [hget] at ha
        exact ih (ti + 1) m a ha
      | some q =>
        rw [hget] at ha
        rcases List.mem_cons.mp ha with rfl | ha2
        · intro hIng
          simp at hIng
        · exact ih (ti + 1) m a ha2
    | INGREDIENT =>
      simp only [hty] at ha
      by_cases hdesc : ann.ingredientText = []
      · rw [if_pos hdesc] at ha
        exact ih ti m a ha
      · rw [if_neg hdesc] at ha
        cases hidx : indexOfFrom text ann.ingredientText (m ann.ingredientText) with
        | none =>
          rw [hidx] at ha
          exact ih ti m a ha
        | some idx =>
          rw [hidx] at ha
          rcases List.mem_cons.mp ha with rfl | ha2
          · intro _
            refine ⟨hdesc, rfl, idx, rfl, ?_⟩
            exact indexOfFrom_substring hidx
          · exact ih ti _ a ha2

/-- Every ingredient annotation the resolver keeps sits at or after the
cursor the loop started with for its mention. -/
theorem fixAnnList_lower_bound (text : Str) (ms : List (Nat × Nat)) :
    ∀ (anns : List AnnOut) (ti : Nat) (m : Str → Nat),
      ∀ a ∈ fixAnnList text ms anns ti m, a.type = AnnType.INGREDIENT →
        ((m a.ingredientText : Int) ≤ a.offset) := by
  intro anns
  induction anns with
  | nil => intro ti m a ha; simp [fixAnnList] at ha
  | cons ann rest ih =>
    intro ti m a ha
    rw [fixAnnList] at ha
    cases hty : ann.type with
    | TTS =>
      simp only [hty] at ha
      cases hget : ms[ti]? with
      | none =>
        rw [hget] at ha
        exact ih (ti + 1) m a ha
      | some q =>
        rw [hget] at ha
        rcases List.mem_cons.mp ha with rfl | ha2
        · intro hIng
          simp at hIng
        · exact ih (ti + 1) m a ha2
    | INGREDIENT =>
      simp only [hty] at ha
      by_cases hdesc : ann.ingredientText = []
      · rw [if_pos hdesc] at ha
        exact ih ti m a ha
      · rw [if_neg hdesc] at ha
        cases hidx : indexOfFrom text ann.ingredientText (m ann.ingredientText) with
        | none =>
          rw [hidx] at ha
          exact ih ti m a ha
        | some idx =>
          rw [hidx] at ha
          rcases List.mem_cons.mp ha with rfl | ha2
          · intro _
            have := indexOfFrom_ge hidx hdesc
            simpa using Int.ofNat_le.mpr this
          · intro hIng
            have hstep := ih ti _ a ha2 hIng
            refine le_trans ?_ hstep
            by_cases hd : a.ingredientText = ann.ingredientText
            · rw [hd, if_pos rfl]
              have h1 := indexOfFrom_ge hidx hdesc
              have : m ann.ingredientText ≤ idx + ann.ingredientText.length :=
                le_trans h1 (Nat.le_add_right _ _)
              exact_mod_cast this
            · rw [if_neg hd]

/-- Annotations for the same mention keep strictly advancing: each later
one starts at or after the end of the earlier one. -/
theorem fixAnnList_same_desc_ordered (text : Str) (ms : List (Nat × Nat)) :
    ∀ (anns : List AnnOut) (ti : Nat) (m : Str → Nat),
      (fixAnnList text ms anns ti m).Pairwise
        (fun a b => a.type = AnnType.INGREDIENT →
          b.type = AnnType.INGREDIENT → a.ingredientText = b.ingredientText →
          a.offset + a.length ≤ b.offset) := by
  intro anns
  induction anns with
  | nil => intro ti m; simp [fixAnnList]
  | cons ann rest ih =>
    intro ti m
    rw [fixAnnList]
    cases hty : ann.type with
    | TTS =>
      cases hget : ms[ti]? with
      | none => exact ih (ti + 1) m
      | some q =>
        dsimp only
        refine List.Pairwise.cons ?_ (ih (ti + 1) m)
        intro b _ hIng
        simp at hIng
    | INGREDIENT =>
      by_cases hdesc : ann.ingredientText = []
      · rw [if_pos hdesc]
        exact ih ti m
      · rw [if_neg hdesc]
        cases hidx : indexOfFrom text ann.ingredientText (m ann.ingredientText) with
        | none => exact ih ti m
        | some idx =>
          dsimp only
          refine List.Pairwise.cons ?_ (ih ti _)
          intro b hb _ hbIng hsame
          dsimp only at hsame ⊢
          have hlow := fixAnnList_lower_bound text ms rest ti _ b hb hbIng
          rw [if_pos hsame.symm] at hlow
          push_cast at hlow
          exact hlow

/-- C4 is false as stated: the Position Resolver does not run the
cascading search — on the counterexample step it drops the proposed
mention `"200 g cashewnoten"` even though the cascading search locates
`"cashewnoten"` at offset 11. -/
theorem c4_resolver_search_counterexample :
    (fixStep c4Step).annotations = [] ∧
      findIngredientInText ("200 g cashewnoten".toList) c4Step.text =
        some (11, 11) := by
  refine ⟨by decide, by decide⟩

/-- C4 amended: the Position Resolver locates each proposed ingredient
mention by exact literal substring search from a per-description cursor
(the cascading search belongs to the Reconciler's backfill, not the
resolver): every kept ingredient annotation covers a literal occurrence
of its mention text, repeated equal mentions consume successive
non-overlapping occurrences, and proposals whose mention does not occur
literally (or is empty) are dropped. -/
theorem c4_resolver_search_amended :
    (∀ (step : StepOut) (a : AnnOut), a ∈ (fixStep step).annotations →
      a.type = AnnType.INGREDIENT →
      a.ingredientText ≠ [] ∧ a.length = (a.ingredientText.length : Int) ∧
      containsSubstr step.text a.ingredientText = true ∧
      ∃ n : Nat, a.offset = (n : Int) ∧
        jsSubstring step.text n a.ingredientText.length = a.ingredientText) ∧
    (∀ step : StepOut, (fixStep step).annotations.Pairwise
      (fun a b => a.type = AnnType.INGREDIENT →
        b.type = AnnType.INGREDIENT → a.ingredientText = b.ingredientText →
        a.offset + a.length ≤ b.offset)) := by
  constructor
  · intro step a ha hIng
    by_cases h : step.annotations = []
    · rw [fixStep, if_pos h, h] at ha
      simp at ha
    · rw [fixStep, if_neg h] at ha
      obtain ⟨hne, hlen, n, hoff, hsub⟩ :=
        fixAnnList_ingredient_exact step.text (ttsMatchAll step.text)
          step.annotations 0 (fun _ => 0) a ha hIng
      refine ⟨hne, hlen, ?_, n, hoff, hsub⟩
      have hpre : a.ingredientText.isPrefixOf (step.text.drop n) := by
        rw [List.isPrefixOf_iff_prefix, ← hsub]
        unfold jsSubstring
        exact List.take_prefix _ _
      unfold containsSubstr
      exact indexOf_isSome_of_occurrence hpre
  · intro step
    by_cases h : step.annotations = []
    · rw [fixStep, if_pos h, h]
      simp
    · rw [fixStep, if_neg h]
      exact fixAnnList_same_desc_ordered step.text (ttsMatchAll step.text)
        step.annotations 0 (fun _ => 0)

/-- Witness for the amended C4 at the two-mention step: the second `kaas`
annotation survives at offset 19 and the pairwise advancing property
holds on the resolved step. -/
theorem c4_resolver_search_amended_witness :
    (({ exIngAnn ("kaas".toList) with offset := 19, length := 4 } : AnnOut) ∈
        (fixStep c4WitnessStep).annotations ∧
      containsSubstr c4WitnessStep.text ("kaas".toList) = true) ∧
    (fixStep c4WitnessStep).annotations.Pairwise
      (fun a b => a.type = AnnType.INGREDIENT →
        b.type = AnnType.INGREDIENT → a.ingredientText = b.ingredientText →
        a.offset + a.length ≤ b.offset) :=
  ⟨⟨by decide,
    (c4_resolver_search_amended.1 c4WitnessStep
      ({ exIngAnn ("kaas".toList) with offset := 19, length := 4 })
      (by decide) rfl).2.2.1⟩,
   c4_resolver_search_amended.2 c4WitnessStep⟩

/-! ## C6 — the round-trip property -/

/-- Every suffix-search hit is an `indexOf` hit for some needle of the
reported length. -/
theorem suffixSearchAux_sound {txt : Str} :
    ∀ {ws : List Str} {off len : Nat},
      suffixSearchAux txt ws = some (off, len) →
      ∃ needle : Str, indexOf txt needle = some off ∧ len = needle.length := by
  intro ws
  induction ws with
  | nil => intro off len h; simp [suffixSearchAux] at h
  | cons w rest ih =>
    intro off len h
    rw [suffixSearchAux] at h
    by_cases hlen : (joinSpace (w :: rest)).length < 4
    · rw [if_pos hlen] at h
      rw [Option.none_orElse] at h
      exact ih h
    · rw [if_neg hlen] at h
      cases hidx : indexOf txt (joinSpace (w :: rest)) with
      | none =>
        rw [hidx] at h
        rw [Option.map_none', Option.none_orElse] at h
        exact ih h
      | some i =>
        rw [hidx] at h
        rw [Option.map_some', Option.some_orElse] at h
        cases h
        exact ⟨joinSpace (w :: rest), hidx, rfl⟩

/-- Every long-word hit is an `indexOf` hit for some needle of the
reported length. -/
theorem firstWordMatch_sound {txt : Str} :
    ∀ {ws : List Str} {off len : Nat},
      firstWordMatch txt ws = some (off, len) →
      ∃ needle : Str, indexOf txt needle = some off ∧ len = needle.length := by
  intro ws
  induction ws with
  | nil => intro off len h; simp [firstWordMatch] at h
  | cons w rest ih =>
    intro off len h
    rw [firstWordMatch] at h
    cases hidx : indexOf txt w with
    | none =>
      rw [hidx] at h
      rw [Option.map_none', Option.none_orElse] at h
      exact ih h
    | some i =>
      rw [hidx] at h
      rw [Option.map_some', Option.some_orElse] at h
      cases h
      exact ⟨w, hidx, rfl⟩

/-- Every `&`/`en`-part hit is an `indexOf` hit for some needle of the
reported length. -/
theorem partsSearch_sound {txt : Str} :
    ∀ {ps : List Str} {off len : Nat},
      partsSearch txt ps = some (off, len) →
      ∃ needle : Str, indexOf txt needle = some off ∧ len = needle.length := by
  intro ps
  induction ps with
  | nil => intro off len h; simp [partsSearch] at h
  | cons p rest ih =>
    intro off len h
    rw [partsSearch] at h
    by_cases hlen : 4 ≤ (jsTrim p).length
    · rw [if_pos hlen] at h
      cases hidx : indexOf txt (jsTrim p) with
      | none =>
        rw [hidx] at h
        rw [Option.map_none', Option.none_orElse] at h
        exact ih h
      | some i =>
        rw [hidx] at h
        rw [Option.map_some', Option.some_orElse] at h
        cases h
        exact ⟨jsTrim p, hidx, rfl⟩
    · rw [if_neg hlen] at h
      rw [Option.none_orElse] at h
      exact ih h

/-- Every fallback-stage hit is an `indexOf` hit for some needle of the
reported length. -/
theorem cascadeFallback_sound {ns txt : Str} {off len : Nat}
    (h : cascadeFallback ns txt = some (off, len)) :
    ∃ needle : Str, indexOf txt needle = some off ∧ len = needle.length := by
  unfold cascadeFallback at h
  cases hws : jsSplitWs ns with
  | nil =>
    rw [hws] at h
    simp only [List.filter_nil] at h
    rw [show sortByLenDesc [] = [] from rfl] at h
    rw [show firstWordMatch txt [] = none from rfl] at h
    dsimp only at h
    by_cases hp : (splitParts ns).length ≤ 1
    · rw [if_pos hp] at h
      cases h
    · rw [if_neg hp] at h
      exact partsSearch_sound h
  | cons w rest =>
    rw [hws] at h
    dsimp only at h
    cases hsuf : suffixSearchAux txt rest with
    | some r =>
      rw [hsuf] at h
      cases h
      exact suffixSearchAux_sound hsuf
    | none =>
      rw [hsuf] at h
      dsimp only at h
      cases hfw : firstWordMatch txt
          (sortByLenDesc ((w :: rest).filter (fun w => 5 ≤ alphaCount w))) with
      | some r =>
        rw [hfw] at h
        cases h
        exact firstWordMatch_sound hfw
      | none =>
        rw [hfw] at h
        dsimp only at h
        by_cases hp : (splitParts ns).length ≤ 1
        · rw [if_pos hp] at h
          cases h
        · rw [if_neg hp] at h
          exact partsSearch_sound h

/-- C6's backfill leg: every successful cascading search round-trips —
the reported position is an `indexOf` hit for the search string the stage
used, and the substring there is exactly that string. -/
theorem findIngredientInText_sound {ing txt : Str} {off len : Nat}
    (h : findIngredientInText ing txt = some (off, len)) :
    ∃ needle : Str, indexOf txt needle = some off ∧ len = needle.length ∧
      jsSubstring txt off len = needle := by
  have key : ∃ needle : Str, indexOf txt needle = some off ∧
      len = needle.length := by
    unfold findIngredientInText at h
    cases h1 : indexOf txt ing with
    | some idx =>
      rw [h1] at h
      cases h
      exact ⟨ing, h1, rfl⟩
    | none =>
      rw [h1] at h
      dsimp only at h
      by_cases h2c : jsTrim (stripQty ing) ≠ ing ∧ 3 ≤ (jsTrim (stripQty ing)).length
      · rw [if_pos h2c] at h
        cases h2 : indexOf txt (jsTrim (stripQty ing)) with
        | some i2 =>
          rw [h2] at h
          rw [Option.map_some'] at h
          dsimp only at h
          cases h
          exact ⟨jsTrim (stripQty ing), h2, rfl⟩
        | none =>
          rw [h2] at h
          rw [Option.map_none'] at h
          dsimp only at h
          exact cascadeFallback_sound h
      · rw [if_neg h2c] at h
        dsimp only at h
        exact cascadeFallback_sound h
  obtain ⟨needle, hidx, hlen⟩ := key
  refine ⟨needle, hidx, hlen, ?_⟩
  rw [hlen]
  exact indexOfFrom_substring hidx

/-- Every TTS annotation the resolver keeps carries the position of one
of the scan matches. -/
theorem fixAnnList_tts_member (text : Str) (ms : List (Nat × Nat)) :
    ∀ (anns : List AnnOut) (ti : Nat) (m : Str → Nat),
      ∀ a ∈ fixAnnList text ms anns ti m, a.type = AnnType.TTS →
        ∃ p : Nat × Nat, a.offset = (p.1 : Int) ∧ a.length = (p.2 : Int) ∧
          p ∈ ms := by
  intro anns
  induction anns with
  | nil => intro ti m a ha; simp [fixAnnList] at ha
  | cons ann rest ih =>
    intro ti m a ha
    rw [fixAnnList] at ha
    cases hty : ann.type with
    | TTS =>
      simp only [hty] at ha
      cases hget : ms[ti]? with
      | none =>
        rw [hget] at ha
        exact ih (ti + 1) m a ha
      | some q =>
        rw [hget] at ha
        rcases List.mem_cons.mp ha with rfl | ha2
        · intro _
          exact ⟨q, rfl, rfl, List.getElem?_mem hget⟩
        · exact ih (ti + 1) m a ha2
    | INGREDIENT =>
      simp only [hty] at ha
      by_cases hdesc : ann.ingredientText = []
      · rw [if_pos hdesc] at ha
        exact ih ti m a ha
      · rw [if_neg hdesc] at ha
        cases hidx : indexOfFrom text ann.ingredientText (m ann.ingredientText) with
        | none =>
          rw [hidx] at ha
          exact ih ti m a ha
        | some idx =>
          rw [hidx] at ha
          rcases List.mem_cons.mp ha with rfl | ha2
          · intro hT
            simp at hT
          · exact ih ti _ a ha2

/-- Branch analysis of one backfill iteration: either the state is
unchanged, or an uncovered ingredient located by the cascading search is
appended and covered. -/
theorem tryAddIngredient_cases (txt : Str) (st : List Annot × List Str)
    (ing : Ingredient) :
    tryAddIngredient txt st ing = st ∨
    ∃ off len : Nat, st.2.contains ing.text = false ∧
      findIngredientInText ing.text txt = some (off, len) ∧
      tryAddIngredient txt st ing =
        (st.1 ++ [Annot.ingredient ing.text
            { offset := (off : Int), length := (len : Int) }],
         ing.text :: st.2) := by
  unfold tryAddIngredient
  by_cases hc : st.2.contains ing.text = true
  · rw [if_pos hc]
    exact Or.inl rfl
  · rw [if_neg hc]
    cases hf : findIngredientInText ing.text txt with
    | none => exact Or.inl rfl
    | some r =>
      obtain ⟨off0, len0⟩ := r
      dsimp only
      by_cases ho : overlapsExisting st.1 (off0 : Int) (len0 : Int) = true
      · rw [if_pos ho]
        exact Or.inl rfl
      · rw [if_neg ho]
        exact Or.inr ⟨off0, len0, Bool.eq_false_iff.mpr hc, rfl, rfl⟩

/-- Every annotation produced by the ingredient fold is either an
original annotation or a backfilled one whose position came from the
cascading search. -/
theorem foldIngredients_mem (txt : Str) (ings : List Ingredient) :
    ∀ (st : List Annot × List Str) (a : Annot),
      a ∈ (ings.foldl (tryAddIngredient txt) st).1 →
      a ∈ st.1 ∨ ∃ dsc : Str, ∃ off len : Nat,
        a = Annot.ingredient dsc
          { offset := (off : Int), length := (len : Int) } ∧
        findIngredientInText dsc txt = some (off, len) := by
  induction ings with
  | nil => intro st a ha; exact Or.inl ha
  | cons ing rest ih =>
    intro st a ha
    rw [List.foldl_cons] at ha
    rcases tryAddIngredient_cases txt st ing with heq | ⟨off, len, _, hf, heq⟩
    · rw [heq] at ha
      exact ih st a ha
    · rw [heq] at ha
      rcases ih _ a ha with hmem | hnew
      · rcases List.mem_append.mp hmem with h1 | h2
        · exact Or.inl h1
        · rcases List.mem_singleton.mp h2 with rfl
          exact Or.inr ⟨ing.text, off, len, rfl, hf⟩
      · exact Or.inr hnew

/-- Step-level backfill membership: the output step keeps the input text,
and each of its annotations is original or a located backfill. -/
theorem backfillStep_mem {ings : List Ingredient} {cov : List Str}
    {step : Instruction} :
    (backfillStep ings cov step).1.text = step.text ∧
    ∀ a ∈ (backfillStep ings cov step).1.annotations.getD [],
      a ∈ step.annotations.getD [] ∨ ∃ dsc : Str, ∃ off len : Nat,
        a = Annot.ingredient dsc
          { offset := (off : Int), length := (len : Int) } ∧
        findIngredientInText dsc step.text = some (off, len) := by
  refine ⟨rfl, ?_⟩
  intro a ha
  unfold backfillStep at ha
  by_cases hempty :
      sortByOffset ((ings.foldl (tryAddIngredient step.text)
        (step.annotations.getD [], cov)).1) = []
  · simp only [hempty, if_pos rfl, Option.getD_none] at ha
    cases ha
  · simp only [if_neg hempty, Option.getD_some] at ha
    have hmem := (sortByOffset_perm _).mem_iff.mp ha
    exact foldIngredients_mem step.text ings _ a hmem

/-- Whole-recipe backfill membership, aligned step by step. -/
theorem backfillSteps_spec (ings : List Ingredient) :
    ∀ (steps : List Instruction) (cov : List Str),
      List.Forall₂
        (fun s s' => s'.text = s.text ∧
          ∀ a ∈ s'.annotations.getD [],
            a ∈ s.annotations.getD [] ∨ ∃ dsc : Str, ∃ off len : Nat,
              a = Annot.ingredient dsc
                { offset := (off : Int), length := (len : Int) } ∧
              findIngredientInText dsc s.text = some (off, len))
        steps (backfillSteps ings cov steps) := by
  intro steps
  induction steps with
  | nil => intro cov; exact List.Forall₂.nil
  | cons step rest ih =>
    intro cov
    rw [backfillSteps]
    exact List.Forall₂.cons backfillStep_mem (ih _)

/-- C6: round-trip — every annotation in the resolver's output covers
exactly the string its position was derived from: a kept TTS annotation
sits on one of the pattern-scan matches (so the substring there matches
the appliance grammar), a kept ingredient annotation's substring is its
mention text, and every position the backfill's cascading search reports
(including the backfilled annotations of the reconciled patch) is an
`indexOf` hit whose substring equals the search string that stage used. -/
theorem c6_round_trip :
    (∀ (step : StepOut) (a : AnnOut), a ∈ (fixStep step).annotations →
      a.type = AnnType.TTS →
      ∃ p : Nat × Nat, a.offset = (p.1 : Int) ∧ a.length = (p.2 : Int) ∧
        p ∈ ttsMatchAll step.text ∧
        matchTTS (step.text.drop p.1) = some p.2) ∧
    (∀ (step : StepOut) (a : AnnOut), a ∈ (fixStep step).annotations →
      a.type = AnnType.INGREDIENT →
      a.length = (a.ingredientText.length : Int) ∧
      ∃ n : Nat, a.offset = (n : Int) ∧
        jsSubstring step.text n a.ingredientText.length = a.ingredientText) ∧
    (∀ (ing txt : Str) (off len : Nat),
      findIngredientInText ing txt = some (off, len) →
      ∃ needle : Str, indexOf txt needle = some off ∧ len = needle.length ∧
        jsSubstring txt off len = needle) ∧
    (∀ patch : PatchRecipeRequest,
      List.Forall₂
        (fun s s' => s'.text = s.text ∧
          ∀ a ∈ s'.annotations.getD [],
            a ∈ s.annotations.getD [] ∨ ∃ dsc : Str, ∃ off len : Nat,
              a = Annot.ingredient dsc
                { offset := (off : Int), length := (len : Int) } ∧
              findIngredientInText dsc s.text = some (off, len) ∧
              ∃ needle : Str, indexOf s.text needle = some off ∧
                len = needle.length ∧ jsSubstring s.text off len = needle)
        (patch.instructions.getD [])
        ((addMissingIngredientAnnotations patch).instructions.getD [])) := by
  refine ⟨?_, ?_, ?_, ?_⟩
  · intro step a ha hT
    by_cases h : step.annotations = []
    · rw [fixStep, if_pos h, h] at ha
      simp at ha
    · rw [fixStep, if_neg h] at ha
      obtain ⟨p, hoff, hlen, hp⟩ := fixAnnList_tts_member step.text
        (ttsMatchAll step.text) step.annotations 0 (fun _ => 0) a ha hT
      exact ⟨p, hoff, hlen, hp, ttsMatchAll_sound hp⟩
  · intro step a ha hIng
    by_cases h : step.annotations = []
    · rw [fixStep, if_pos h, h] at ha
      simp at ha
    · rw [fixStep, if_neg h] at ha
      obtain ⟨_, hlen, n, hoff, hsub⟩ := fixAnnList_ingredient_exact step.text
        (ttsMatchAll step.text) step.annotations 0 (fun _ => 0) a ha hIng
      exact ⟨hlen, n, hoff, hsub⟩
  · intro ing txt off len h
    exact findIngredientInText_sound h
  · intro patch
    unfold addMissingIngredientAnnotations
    by_cases hguard : patch.ingredients.getD [] = [] ∨
        patch.instructions.getD [] = []
    · rw [if_pos hguard]
      have : ∀ l : List Instruction, List.Forall₂
          (fun s s' => s'.text = s.text ∧
            ∀ a ∈ s'.annotations.getD [],
              a ∈ s.annotations.getD [] ∨ ∃ dsc : Str, ∃ off len : Nat,
                a = Annot.ingredient dsc
                  { offset := (off : Int), length := (len : Int) } ∧
                findIngredientInText dsc s.text = some (off, len) ∧
                ∃ needle : Str, indexOf s.text needle = some off ∧
                  len = needle.length ∧
                  jsSubstring s.text off len = needle) l l := by
        intro l
        induction l with
        | nil => exact List.Forall₂.nil
        | cons x xs ih =>
          exact List.Forall₂.cons ⟨rfl, fun a ha => Or.inl ha⟩ ih
      exact this _
    · rw [if_neg hguard]
      dsimp only
      rw [backfillFold_eq]
      dsimp only
      rw [List.nil_append, Option.getD_some]
      refine List.Forall₂.imp ?_
        (backfillSteps_spec (patch.ingredients.getD [])
          (patch.instructions.getD [])
          (initiallyCovered (patch.instructions.getD [])))
      intro s s' hss
      refine ⟨hss.1, fun a ha => ?_⟩
      rcases hss.2 a ha with h1 | ⟨dsc, off, len, ha2, hf⟩
      · exact Or.inl h1
      · exact Or.inr ⟨dsc, off, len, ha2, hf, findIngredientInText_sound hf⟩

/-- Witness for C6: the worked TTS annotation round-trips onto the scan
match `(12, 18)`, and the backfilled cashew position `(11, 11)`
round-trips onto the quantity-stripped needle. -/
theorem c6_round_trip_witness :
    (∃ p : Nat × Nat,
      ({ c3ExampleAnn with offset := 12, length := 18 } : AnnOut).offset =
        (p.1 : Int) ∧
      ({ c3ExampleAnn with offset := 12, length := 18 } : AnnOut).length =
        (p.2 : Int) ∧
      p ∈ ttsMatchAll c3ExampleStep.text ∧
      matchTTS (c3ExampleStep.text.drop p.1) = some p.2) ∧
    (∃ needle : Str, indexOf c5Text needle = some 11 ∧ 11 = needle.length ∧
      jsSubstring c5Text 11 11 = needle) :=
  ⟨c6_round_trip.1 c3ExampleStep
      { c3ExampleAnn with offset := 12, length := 18 } (by decide) rfl,
   c6_round_trip.2.2.1 ("200 g cashewnoten".toList) c5Text 11 11 (by decide)⟩

/-! ## C2 — independence from tentative positions -/

/-- The annotation loop never reads the proposed positions: on lists equal
up to tentative positions it produces identical output. -/
theorem fixAnnList_congr (text : Str) (ms : List (Nat × Nat)) :
    ∀ {l1 l2 : List AnnOut}, List.Forall₂ annSameExceptPos l1 l2 →
      ∀ (ti : Nat) (m : Str → Nat),
        fixAnnList text ms l1 ti m = fixAnnList text ms l2 ti m := by
  intro l1
  induction l1 with
  | nil =>
    intro l2 h ti m
    cases h
    rfl
  | cons a rest ih =>
    intro l2 h ti m
    cases h with
    | cons hab htail =>
      rename_i b l2tail
      obtain ⟨ty, sp, ts, tv, dir, ing, offA, lenA⟩ := a
      obtain ⟨ty2, sp2, ts2, tv2, dir2, ing2, offB, lenB⟩ := b
      obtain ⟨h1, h2, h3, h4, h5, h6⟩ := hab
      dsimp only at h1 h2 h3 h4 h5 h6
      subst h1 h2 h3 h4 h5 h6
      rw [fixAnnList, fixAnnList]
      dsimp only
      cases ty with
      | TTS =>
        cases ms[ti]? with
        | none => exact ih htail (ti + 1) m
        | some q =>
          dsimp only
          rw [ih htail (ti + 1) m]
      | INGREDIENT =>
        by_cases hdesc : ing = []
        · rw [if_pos hdesc, if_pos hdesc]
          exact ih htail ti m
        · rw [if_neg hdesc, if_neg hdesc]
          cases indexOfFrom text ing (m ing) with
          | none => exact ih htail ti m
          | some idx =>
            dsimp only
            rw [ih htail ti _]

/-- Step-wise congruence of the Position Resolver. -/
theorem fixStep_congr {s t : StepOut} (h : stepSameExceptPos s t) :
    fixStep s = fixStep t := by
  obtain ⟨stext, sanns⟩ := s
  obtain ⟨ttext, tanns⟩ := t
  obtain ⟨htext, hanns⟩ := h
  dsimp only at htext hanns
  subst htext
  by_cases hnil : sanns = []
  · have hnil2 : tanns = [] := by
      subst hnil
      cases hanns
      rfl
    subst hnil hnil2
    rfl
  · have hnil2 : tanns ≠ [] := by
      intro hcon
      subst hcon
      cases hanns
      exact hnil rfl
    simp only [fixStep, if_neg hnil, if_neg hnil2]
    rw [fixAnnList_congr stext (ttsMatchAll stext) hanns 0 (fun _ => 0)]

/-- List-wise congruence of the Position Resolver. -/
theorem fixAnnotationPositions_congr {l1 l2 : List StepOut}
    (h : List.Forall₂ stepSameExceptPos l1 l2) :
    fixAnnotationPositions l1 = fixAnnotationPositions l2 := by
  induction h with
  | nil => rfl
  | cons hst htail ih =>
    unfold fixAnnotationPositions at ih ⊢
    simp only [List.map_cons]
    rw [fixStep_congr hst, ih]

/-- C2: the resolved positions depend only on the step texts and the
annotations' non-position payload — two drafts that differ only in the
translator's tentative `offset`/`length` fields resolve to identical
steps, and reconcile to identical patches. -/
theorem c2_position_independence (d e : TranslatedRecipe)
    (h : draftSameExceptPos d e) :
    fixAnnotationPositions d.instructions =
      fixAnnotationPositions e.instructions ∧ reconcile d = reconcile e := by
  obtain ⟨dn, di, dins, dt, dp, ds⟩ := d
  obtain ⟨en, ei, eins, et, ep, es⟩ := e
  obtain ⟨h1, h2, h3, h4, h5, h6⟩ := h
  dsimp only at h1 h2 h3 h4 h5 h6
  subst h1 h2 h3 h4 h5
  have hfix := fixAnnotationPositions_congr h6
  refine ⟨hfix, ?_⟩
  unfold reconcile
  dsimp only
  rw [hfix]

/-- Witness for C2: two copies of a concrete draft whose only difference
is the tentative position of the setting annotation reconcile to the same
patch. -/
theorem c2_position_independence_witness :
    draftSameExceptPos (c2Draft 0 3) (c2Draft 99 1) ∧
      reconcile (c2Draft 0 3) = reconcile (c2Draft 99 1) :=
  ⟨⟨rfl, rfl, rfl, rfl, rfl,
    List.Forall₂.cons
      ⟨rfl, List.Forall₂.cons ⟨rfl, rfl, rfl, rfl, rfl, rfl⟩ List.Forall₂.nil⟩
      List.Forall₂.nil⟩,
   (c2_position_independence (c2Draft 0 3) (c2Draft 99 1)
     ⟨rfl, rfl, rfl, rfl, rfl,
      List.Forall₂.cons
        ⟨rfl, List.Forall₂.cons ⟨rfl, rfl, rfl, rfl, rfl, rfl⟩ List.Forall₂.nil⟩
        List.Forall₂.nil⟩).2⟩

/-! ## C1 — the overlap invariant -/

theorem spansDisjoint_symm : Symmetric spansDisjoint := by
  intro a b h
  exact h.symm

/-- A candidate that passes the backfill's overlap test is disjoint (in
the claim's sense) from every annotation already in the step. -/
theorem overlapsExisting_false_disjoint {anns : List Annot}
    {off len : Int} (h : overlapsExisting anns off len = false)
    {a : Annot} (ha : a ∈ anns) :
    a.position.offset + a.position.length ≤ off ∨
      off + len ≤ a.position.offset := by
  unfold overlapsExisting at h
  rw [List.any_eq_false] at h
  have := h a ha
  simp only [decide_eq_true_eq, not_and, not_lt] at this
  by_cases hlt : off < a.position.offset + a.position.length
  · exact Or.inr (this hlt)
  · push_neg at hlt
    exact Or.inl hlt

theorem tryAddIngredient_pairwise {txt : Str} {st : List Annot × List Str}
    {ing : Ingredient} (h : st.1.Pairwise spansDisjoint) :
    ((tryAddIngredient txt st ing).1).Pairwise spansDisjoint := by
  unfold tryAddIngredient
  by_cases hc : st.2.contains ing.text
  · rw [if_pos hc]
    exact h
  · rw [if_neg hc]
    cases hf : findIngredientInText ing.text txt with
    | none => exact h
    | some r =>
      cases ho : overlapsExisting st.1 (r.1 : Int) (r.2 : Int) with
      | true =>
        simp only [ho, if_true]
        exact h
      | false =>
        simp only [ho, Bool.false_eq_true, if_false]
        rw [List.pairwise_append]
        refine ⟨h, List.pairwise_singleton _ _, ?_⟩
        intro a ha b hb
        rcases List.mem_singleton.mp hb with rfl
        exact overlapsExisting_false_disjoint ho ha

theorem foldIngredients_pairwise (txt : Str) (ings : List Ingredient) :
    ∀ st : List Annot × List Str, st.1.Pairwise spansDisjoint →
      ((ings.foldl (tryAddIngredient txt) st).1).Pairwise spansDisjoint := by
  induction ings with
  | nil => intro st h; exact h
  | cons ing rest ih =>
    intro st h
    exact ih _ (tryAddIngredient_pairwise h)

theorem backfillStep_noOverlap {ings : List Ingredient} {cov : List Str}
    {step : Instruction} (h : stepNoOverlap step) :
    stepNoOverlap (backfillStep ings cov step).1 := by
  unfold backfillStep stepNoOverlap
  have hfold := foldIngredients_pairwise step.text ings
    (step.annotations.getD [], cov) h
  by_cases hempty :
      sortByOffset ((ings.foldl (tryAddIngredient step.text)
        (step.annotations.getD [], cov)).1) = []
  · simp only [hempty, if_pos rfl]
    simp
  · simp only [if_neg hempty]
    simp only [Option.getD_some]
    exact ((sortByOffset_perm _).pairwise_iff
      (fun h => spansDisjoint_symm h)).mpr hfold

theorem backfillFold_noOverlap (ings : List Ingredient) :
    ∀ (steps : List Instruction) (acc : List Instruction × List Str),
      (∀ i ∈ acc.1, stepNoOverlap i) → (∀ i ∈ steps, stepNoOverlap i) →
      ∀ i ∈ (steps.foldl
          (fun (acc : List Instruction × List Str) step =>
            (acc.1 ++ [(backfillStep ings acc.2 step).1],
             (backfillStep ings acc.2 step).2)) acc).1,
        stepNoOverlap i := by
  intro steps
  induction steps with
  | nil => intro acc hacc _ i hi; exact hacc i hi
  | cons step rest ih =>
    intro acc hacc hsteps i hi
    refine ih _ ?_ (fun j hj => hsteps j (List.mem_cons_of_mem _ hj)) i hi
    intro j hj
    rcases List.mem_append.mp hj with hj1 | hj2
    · exact hacc j hj1
    · rcases List.mem_singleton.mp hj2 with rfl
      exact backfillStep_noOverlap (hsteps step (List.mem_cons_self _ _))

/-- The statement the counterexample forces in place of the claim: the
backfill and sort preserve step-wise non-overlap — every annotation it
adds passes the overlap test against the annotations already in the step,
so whenever the Position Resolver's output satisfies the invariant, the
reconciled patch does too.  (The resolver itself can emit nested mention
spans, so the invariant does not hold for all inputs; see the
counterexample.) -/
theorem c1_no_overlap_amended (patch : PatchRecipeRequest)
    (h : patchNoOverlap patch) :
    patchNoOverlap (addMissingIngredientAnnotations patch) := by
  unfold addMissingIngredientAnnotations
  by_cases hguard : patch.ingredients.getD [] = [] ∨ patch.instructions.getD [] = []
  · simp only [if_pos hguard]
    exact h
  · simp only [if_neg hguard]
    intro i hi
    simp only [Option.getD_some] at hi
    exact backfillFold_noOverlap _ _ ([], initiallyCovered (patch.instructions.getD []))
      (by intro j hj; simp at hj) h i hi

/-- Witness for the amended C1 statement at a concrete patch. -/
theorem c1_no_overlap_amended_witness :
    patchNoOverlap c1WitnessPatch ∧
      patchNoOverlap (addMissingIngredientAnnotations c1WitnessPatch) :=
  ⟨by decide, c1_no_overlap_amended c1WitnessPatch (by decide)⟩

/-- C1 is false as stated: on the counterexample draft the reconciled
patch contains a step whose two ingredient annotations occupy the nested
ranges `[0,2)` and `[1,2)` — the Position Resolver can place one mention
inside another, and neither the backfill nor the sort repairs it. -/
theorem c1_overlap_counterexample : ¬ patchNoOverlap (reconcile c1Draft) := by
  decide

/-- Witness for C10 at a concrete client, server state and cached id. -/
theorem c10_recipeExists_contract_witness :
    (CookidooClient.mk ⟨[], []⟩).recipeExists
      [("r1".toList), ("r2".toList)] ("r1".toList) = true ∧
    decideUpsert (CookidooClient.mk ⟨[], []⟩)
      [("r1".toList), ("r2".toList)] (some ("r1".toList)) =
      UpsertAction.update ("r1".toList) :=
  ⟨c10_recipeExists_contract.1 _ _ _ (by decide),
   c10_recipeExists_contract.2.2.1 _ _ _
     (c10_recipeExists_contract.1 _ _ _ (by decide))⟩

end Cookiedoo
